import Mathlib

set_option maxRecDepth 100000

/-!
Verification of the kame text-editing engine (gap buffer, undo log,
incremental search, editor controller) against its specification.

The Rust sources are shallowly embedded: buffer bytes are a `List Nat`
(each entry a byte value), machine integers are `Nat` (usize arithmetic in
the source never overflows on the inputs considered; `saturating_sub` is
Nat subtraction), fallible code (Rust `panic!`, out-of-bounds indexing,
assert failures) is modelled with `Option` (`none` = panic).
-/

namespace Kame

/-- `0x80 ≤ v ≤ 0xBF`: `v` is a UTF-8 continuation byte. -/
def inCont (v : Nat) : Prop := 0x80 ≤ v ∧ v ≤ 0xBF

instance (v : Nat) : Decidable (inCont v) := by unfold inCont; infer_instance

/-- Embeds the UTF-8 boundary test `str::from_utf8(..).is_ok()` used by the
buffer: length (1-4) of the leading well-formed UTF-8 sequence of `l`, or
`none` if `l` does not start with one.  Follows the standard UTF-8 table
(rejecting overlong forms, surrogates, and values above U+10FFFF), which is
exactly what Rust's `str::from_utf8` accepts. -/
def headCp : List Nat → Option Nat
  | [] => none
  | b :: r =>
    if b ≤ 0x7F then some 1
    else if 0xC2 ≤ b ∧ b ≤ 0xDF then
      match r with
      | c1 :: _ => if inCont c1 then some 2 else none
      | [] => none
    else if b = 0xE0 then
      match r with
      | c1 :: c2 :: _ => if (0xA0 ≤ c1 ∧ c1 ≤ 0xBF) ∧ inCont c2 then some 3 else none
      | _ => none
    else if (0xE1 ≤ b ∧ b ≤ 0xEC) ∨ b = 0xEE ∨ b = 0xEF then
      match r with
      | c1 :: c2 :: _ => if inCont c1 ∧ inCont c2 then some 3 else none
      | _ => none
    else if b = 0xED then
      match r with
      | c1 :: c2 :: _ => if (0x80 ≤ c1 ∧ c1 ≤ 0x9F) ∧ inCont c2 then some 3 else none
      | _ => none
    else if b = 0xF0 then
      match r with
      | c1 :: c2 :: c3 :: _ =>
        if (0x90 ≤ c1 ∧ c1 ≤ 0xBF) ∧ inCont c2 ∧ inCont c3 then some 4 else none
      | _ => none
    else if 0xF1 ≤ b ∧ b ≤ 0xF3 then
      match r with
      | c1 :: c2 :: c3 :: _ =>
        if inCont c1 ∧ inCont c2 ∧ inCont c3 then some 4 else none
      | _ => none
    else if b = 0xF4 then
      match r with
      | c1 :: c2 :: c3 :: _ =>
        if (0x80 ≤ c1 ∧ c1 ≤ 0x8F) ∧ inCont c2 ∧ inCont c3 then some 4 else none
      | _ => none
    else none

/-- Fueled UTF-8 validity check over a whole byte list (fuel bounds the
number of decoded codepoints; `l.length` is always enough). -/
def utf8ValidFuel : Nat → List Nat → Bool
  | _, [] => true
  | 0, _ :: _ => false
  | f + 1, b :: r =>
    match headCp (b :: r) with
    | some k => utf8ValidFuel f ((b :: r).drop k)
    | none => false

/-- Embeds `str::from_utf8(l).is_ok()`: `l` is a well-formed UTF-8 byte
sequence. -/
def utf8Valid (l : List Nat) : Bool := utf8ValidFuel l.length l

/-- Byte length of the leading codepoint as determined by its lead byte
(the standard UTF-8 length table); meaningful on valid sequences. -/
def cpLen : List Nat → Nat
  | [] => 0
  | b :: _ => if b < 0x80 then 1 else if b < 0xE0 then 2 else if b < 0xF0 then 3 else 4

/-- UTF-8 encoding of a character, as `String::from(c).as_bytes()`. -/
def encodeChar (c : Char) : List Nat :=
  let n := c.toNat
  if n < 0x80 then [n]
  else if n < 0x800 then [0xC0 + n / 64, 0x80 + n % 64]
  else if n < 0x10000 then [0xE0 + n / 4096, 0x80 + n / 64 % 64, 0x80 + n % 64]
  else [0xF0 + n / 262144, 0x80 + n / 4096 % 64, 0x80 + n / 64 % 64, 0x80 + n % 64]

/-- UTF-8 byte string of a Rust `String` modelled as a list of chars. -/
def encodeStr (s : List Char) : List Nat := s.flatMap encodeChar

/-- `String::len` of a Rust string: its UTF-8 byte count. -/
def strLen (s : List Char) : Nat := (encodeStr s).length

/-- Checked read `l[i]` (Rust indexing panics out of bounds). -/
def getB (l : List Nat) (i : Nat) : Option Nat := l.get? i

/-- Checked write `l[i] = v` (Rust indexing panics out of bounds). -/
def setB (l : List Nat) (i : Nat) (v : Nat) : Option (List Nat) :=
  if i < l.length then some (l.set i v) else none

/-- Checked slice `l[lo..hi]` (Rust slicing panics when out of range). -/
def sliceB (l : List Nat) (lo hi : Nat) : Option (List Nat) :=
  if lo ≤ hi ∧ hi ≤ l.length then some ((l.drop lo).take (hi - lo)) else none

/-- `buffer.rs`: `DEFAULT_GAP_LEN`. -/
def DEFAULT_GAP_LEN : Nat := 1024

/-- `buffer.rs`: the gap buffer.  `bytes` has a gap at `[iptr, iptr+gap_len)`;
the logical text is the bytes before the gap followed by the bytes after it. -/
structure Buffer where
  iptr : Nat
  gap_len : Nat
  bytes : List Nat
  deriving DecidableEq, Repr

namespace Buffer

/-- `Buffer::init`: gap of `DEFAULT_GAP_LEN` zero bytes placed before the
initial text `s` (given as its UTF-8 bytes). -/
def init (s : List Nat) : Buffer :=
  { iptr := 0, gap_len := DEFAULT_GAP_LEN, bytes := List.replicate DEFAULT_GAP_LEN 0 ++ s }

/-- `Buffer::before_insertion_point`: the bytes before the gap. -/
def before_insertion_point (b : Buffer) : List Nat := b.bytes.take b.iptr

/-- `Buffer::after_insertion_point`: the bytes after the gap. -/
def after_insertion_point (b : Buffer) : List Nat := b.bytes.drop (b.iptr + b.gap_len)

/-- Logical content of the buffer: before-gap bytes ++ after-gap bytes. -/
def contents (b : Buffer) : List Nat :=
  b.before_insertion_point ++ b.after_insertion_point

/-- Probe loop of `Buffer::move_ptr_forward`: for `j` from the given start
(with fuel counting the remaining probes out of 4), copy `bytes[i+j]` to
`bytes[iptr+j]` and accept once `bytes[i..=i+j]` is valid UTF-8.
Fuel exhaustion is the `panic!("corrupted utf8")`. -/
def goF : Nat → Buffer → Nat → Nat → Option Buffer
  | 0, _, _, _ => none
  | fuel + 1, b, i, j => do
    let v ← getB b.bytes (i + j)
    let bs ← setB b.bytes (b.iptr + j) v
    let sl ← sliceB bs i (i + j + 1)
    if utf8Valid sl then
      some { iptr := b.iptr + j + 1, gap_len := b.gap_len, bytes := bs }
    else
      goF fuel { b with bytes := bs } i (j + 1)

/-- `Buffer::move_ptr_forward`: move the first codepoint after the gap to the
start of the gap; no-op at buffer end. -/
def move_ptr_forward (b : Buffer) : Option Buffer :=
  if b.iptr + b.gap_len = b.bytes.length then some b
  else goF 4 b (b.iptr + b.gap_len) 0

/-- Probe loop of `Buffer::move_ptr_backward`: for `j` from the given start,
copy `bytes[i-j]` to `bytes[i-j+gap_len]` and accept once `bytes[i-j..=i]`
is valid UTF-8.  `i - j` underflowing usize, and fuel exhaustion, are panics. -/
def goBk : Nat → Buffer → Nat → Nat → Option Buffer
  | 0, _, _, _ => none
  | fuel + 1, b, i, j =>
    if i < j then none
    else do
      let v ← getB b.bytes (i - j)
      let bs ← setB b.bytes (i - j + b.gap_len) v
      let sl ← sliceB bs (i - j) (i + 1)
      if utf8Valid sl then
        some { iptr := b.iptr - (j + 1), gap_len := b.gap_len, bytes := bs }
      else
        goBk fuel { b with bytes := bs } i (j + 1)

/-- `Buffer::move_ptr_backward`: move the last codepoint before the gap to the
end of the gap; no-op at buffer start. -/
def move_ptr_backward (b : Buffer) : Option Buffer :=
  if b.iptr = 0 then some b
  else goBk 4 b (b.iptr - 1) 0

/-- `n` repetitions of a fallible buffer operation (a Rust `for` loop whose
body may panic). -/
def iterN : Nat → (Buffer → Option Buffer) → Buffer → Option Buffer
  | 0, _, b => some b
  | n + 1, f, b => do iterN n f (← f b)

/-- `Buffer::jump`: walk the insertion pointer toward byte offset `n`,
one `move_ptr_backward`/`move_ptr_forward` per unit of the initial byte
distance `|iptr - n|` (the loop bound is computed once, in bytes). -/
def jump (b : Buffer) (n : Nat) : Option Buffer :=
  if n < b.iptr then iterN (b.iptr - n) move_ptr_backward b
  else iterN (n - b.iptr) move_ptr_forward b

/-- Tail-relocation loop of `Buffer::insert`'s growth branch: for `count`
iterations starting at index `i`, copy `bytes[i]` to `bytes[i + off]` and
zero `bytes[i]`. -/
def relocLoop : Nat → Nat → Nat → List Nat → Option (List Nat)
  | 0, _, _, l => some l
  | count + 1, i, off, l => do
    let v ← getB l i
    let l ← setB l (i + off) v
    let l ← setB l i 0
    relocLoop count (i + 1) off l

/-- Write the bytes `vs` at consecutive indices starting at `i`. -/
def writeAt : List Nat → Nat → List Nat → Option (List Nat)
  | [], _, l => some l
  | v :: vs, i, l => do writeAt vs (i + 1) (← setB l i v)

/-- `Buffer::insert`: grow (double the byte vector, relocating the post-gap
tail to the new end) when the gap is below a quarter of the buffer, then
write the codepoint's UTF-8 bytes into the gap head.  The `assert!` that the
gap can hold the longest encoding is a panic when it fails. -/
def insert (b : Buffer) (c : Char) : Option Buffer := do
  let b ←
    if b.gap_len < b.bytes.length / 4 then do
      let old_len := b.bytes.length
      let grown := b.bytes ++ List.replicate old_len 0
      let bs ← relocLoop (old_len - (b.iptr + b.gap_len)) (b.iptr + b.gap_len) old_len grown
      some { b with bytes := bs, gap_len := b.gap_len + old_len }
    else
      some b
  if b.gap_len < 4 then none
  else
    let s_bytes := encodeChar c
    let bs ← writeAt s_bytes b.iptr b.bytes
    some { iptr := b.iptr + s_bytes.length, gap_len := b.gap_len - s_bytes.length, bytes := bs }

/-- `Buffer::revert_insert`: jump back to the pre-insert offset and swallow
the `n` inserted bytes into the gap (capped at the buffer length). -/
def revert_insert (b : Buffer) (prev_iptr n : Nat) : Option Buffer := do
  let b ← b.jump prev_iptr
  some { b with gap_len := min (b.gap_len + n) b.bytes.length }

/-- `Buffer::revert_delete_before_ptr`: jump to the post-delete offset,
shrink the gap by the deleted length (saturating), write the recorded bytes
back before the gap and advance `iptr` past them. -/
def revert_delete_before_ptr (b : Buffer) (prev_iptr : Nat) (deleted : List Nat) :
    Option Buffer := do
  let b ← b.jump prev_iptr
  let g := b.gap_len - deleted.length
  let bs ← writeAt deleted b.iptr b.bytes
  some { iptr := b.iptr + deleted.length, gap_len := g, bytes := bs }

/-- `Buffer::revert_delete_after_ptr`: jump to the pre-delete offset, shrink
the gap by the deleted length (saturating), and write the recorded bytes back
right after the shrunk gap. -/
def revert_delete_after_ptr (b : Buffer) (prev_iptr : Nat) (deleted : List Nat) :
    Option Buffer := do
  let b ← b.jump prev_iptr
  let g := b.gap_len - deleted.length
  let bs ← writeAt deleted (b.iptr + g) b.bytes
  some { b with gap_len := g, bytes := bs }

/-- Probe loop of `Buffer::delete_before_ptr`: push `bytes[i]` onto the
deleted-bytes accumulator (in probe order, i.e. last byte first), accept once
`bytes[i..iptr]` is valid UTF-8; `i` steps down with `saturating_sub`. -/
def delBLoop : Nat → Buffer → Nat → List Nat → Option (Option (List Nat) × Buffer)
  | 0, _, _, _ => none
  | fuel + 1, b, i, res => do
    let v ← getB b.bytes i
    let res := res ++ [v]
    let sl ← sliceB b.bytes i b.iptr
    if utf8Valid sl then
      some (some res, { b with gap_len := b.gap_len + (b.iptr - i), iptr := i })
    else
      delBLoop fuel b (i - 1) res

/-- `Buffer::delete_before_ptr`: remove the codepoint before the gap and
return its bytes (as accumulated by the probe loop); `none` result at buffer
start. -/
def delete_before_ptr (b : Buffer) : Option (Option (List Nat) × Buffer) :=
  if b.iptr = 0 then some (none, b)
  else delBLoop 4 b (b.iptr - 1) []

/-- Probe loop of `Buffer::delete_after_ptr`: push `bytes[i]` (the first
byte after the gap, re-read every iteration) onto the accumulator, accept
once `bytes[i..=i+j]` is valid UTF-8. -/
def delALoop : Nat → Buffer → Nat → Nat → List Nat → Option (Option (List Nat) × Buffer)
  | 0, _, _, _, _ => none
  | fuel + 1, b, i, j, res => do
    let v ← getB b.bytes i
    let res := res ++ [v]
    let sl ← sliceB b.bytes i (i + j + 1)
    if utf8Valid sl then
      some (some res, { b with gap_len := min (b.gap_len + j + 1) b.bytes.length })
    else
      delALoop fuel b i (j + 1) res

/-- `Buffer::delete_after_ptr`: remove the codepoint after the gap and return
the accumulated bytes; `none` result at buffer end. -/
def delete_after_ptr (b : Buffer) : Option (Option (List Nat) × Buffer) :=
  if b.iptr + b.gap_len = b.bytes.length then some (none, b)
  else delALoop 4 b (b.iptr + b.gap_len) 0 []

end Buffer

/-- `undo.rs`: `Command`.  `insert` carries the Rust `String` as a list of
chars; the byte payloads of the delete variants are byte lists. -/
inductive Command where
  | insert : Nat → List Char → Command
  | deleteBefore : Nat → List Nat → Command
  | deleteAfter : Nat → List Nat → Command
  | checkpoint : Command
  deriving DecidableEq, Repr

/-- `undo.rs`: `UndoManager`.  The Rust `Vec` stacks are modelled with the
stack top at the head of the list (`Vec::push`/`pop`/`last` act on the end;
here they act on the head). -/
structure UndoManager where
  undos : List Command
  redos : List Command
  deriving DecidableEq, Repr

namespace UndoManager

/-- `UndoManager::new`. -/
def new : UndoManager := { undos := [], redos := [] }

/-- `UndoManager::push`: compute the final command and the `accumulate` flag
from the stack top exactly as the Rust `match` does, pop the top when
accumulating, push the final command, and clear the redo stack. -/
def push (m : UndoManager) (cmd : Command) : UndoManager :=
  match m.undos with
  | [] => { undos := [cmd], redos := [] }
  | last :: rest =>
    let res : Bool × Command :=
      match last, cmd with
      | .deleteBefore last_i last_val, .deleteBefore i val =>
        if i + val.length = last_i then (true, .deleteBefore i (val ++ last_val))
        else (false, .deleteBefore i val)
      | .deleteAfter last_i last_val, .deleteAfter i val =>
        if i = last_i then (true, .deleteAfter i (last_val ++ val))
        else (false, .deleteAfter i val)
      | .insert last_i last_s, .insert i s =>
        if last_i + strLen last_s = i then (true, .insert last_i (last_s ++ s))
        else (false, .insert i s)
      | .checkpoint, c => (true, c)
      | _, c => (false, c)
    if res.1 then { undos := res.2 :: rest, redos := [] }
    else { undos := res.2 :: last :: rest, redos := [] }

/-- `UndoManager::undo`: pop the undo stack (no-op when empty), apply the
command's buffer-level inverse, push the command onto the redo stack. -/
def undo (m : UndoManager) (buf : Buffer) : Option (UndoManager × Buffer) :=
  match m.undos with
  | [] => some (m, buf)
  | cmd :: rest => do
    let buf ←
      match cmd with
      | .insert prev inserted => buf.revert_insert prev (strLen inserted)
      | .deleteBefore prev deleted => buf.revert_delete_before_ptr prev deleted
      | .deleteAfter prev deleted => buf.revert_delete_after_ptr prev deleted
      | .checkpoint => some buf
    some ({ undos := rest, redos := cmd :: m.redos }, buf)

/-- Insert the chars of a stored string one by one (redo of an insert). -/
def insertChars : Buffer → List Char → Option Buffer
  | b, [] => some b
  | b, c :: cs => do insertChars (← b.insert c) cs

/-- Call `delete_before_ptr` `n` times, discarding the returned bytes. -/
def delNBefore : Nat → Buffer → Option Buffer
  | 0, b => some b
  | n + 1, b => do
    let (_, b) ← b.delete_before_ptr
    delNBefore n b

/-- Call `delete_after_ptr` `n` times, discarding the returned bytes. -/
def delNAfter : Nat → Buffer → Option Buffer
  | 0, b => some b
  | n + 1, b => do
    let (_, b) ← b.delete_after_ptr
    delNAfter n b

/-- `UndoManager::redo`: pop the redo stack (no-op when empty), replay the
command through the buffer's normal mutation path (one insert per char, one
delete per recorded byte), push the command back onto the undo stack. -/
def redo (m : UndoManager) (buf : Buffer) : Option (UndoManager × Buffer) :=
  match m.redos with
  | [] => some (m, buf)
  | cmd :: rest => do
    let buf ←
      match cmd with
      | .insert prev inserted => do insertChars (← buf.jump prev) inserted
      | .deleteBefore prev deleted => do
        delNBefore deleted.length (← buf.jump (prev + deleted.length))
      | .deleteAfter prev deleted => do
        delNAfter deleted.length (← buf.jump prev)
      | .checkpoint => some buf
    some ({ undos := cmd :: m.undos, redos := rest }, buf)

end UndoManager

/-- `editor.rs`: `ISearch` state: the term typed so far, ascending match
start offsets into the logical content, and the current-match index. -/
structure ISearch where
  term : List Char
  ids : List Nat
  current : Nat
  deriving DecidableEq, Repr

namespace ISearch

/-- `ISearch::new` / `ISearch::clear`: empty term and matches, cursor 0. -/
def new : ISearch := { term := [], ids := [], current := 0 }

/-- Non-overlapping left-to-right substring scan, fueled by the remaining
haystack length: embeds `str::match_indices` collecting match start offsets
(both haystack and pattern are UTF-8 byte lists; matches of a valid UTF-8
pattern inside valid UTF-8 text always start on codepoint boundaries, so the
byte-level scan coincides with the string-level one). -/
def matchGo (pat : List Nat) : Nat → List Nat → Nat → List Nat
  | _, [], _ => []
  | 0, _ :: _, _ => []
  | f + 1, x :: hay, pos =>
    if pat ≠ [] ∧ pat.isPrefixOf (x :: hay) then
      pos :: matchGo pat f ((x :: hay).drop pat.length) (pos + pat.length)
    else
      matchGo pat f hay (pos + 1)

/-- All non-overlapping match start offsets of `pat` in `hay`, ascending. -/
def matchIds (hay pat : List Nat) : List Nat := matchGo pat hay.length hay 0

/-- `ISearch::run`: push (`some c`) or pop (`none`) the last char of the
term; on an empty term clear and report nothing; otherwise rescan the full
logical content (`str::from_utf8(..).unwrap()` panics on invalid UTF-8) and
report `ids[current]` (`none` when there are no matches; indexing with a
stale `current` out of bounds is a panic).  The match cursor is not reset. -/
def run (s : ISearch) (buf : Buffer) (d : Option Char) : Option (Option Nat × ISearch) :=
  let term := match d with
    | some c => s.term ++ [c]
    | none => s.term.dropLast
  if term = [] then some (none, new)
  else
    let tmp := buf.contents
    if utf8Valid tmp then
      let ids := matchIds tmp (encodeStr term)
      let s' : ISearch := { term := term, ids := ids, current := s.current }
      if ids = [] then some (none, s')
      else do
        let v ← ids.get? s.current
        some (some v, s')
    else none

/-- `ISearch::fetch_next`: no-op reporting nothing when there are no matches;
otherwise advance the cursor by 1 modulo the match count and report the
offset there. -/
def fetch_next (s : ISearch) : Option (Option Nat × ISearch) :=
  if s.ids = [] then some (none, s)
  else
    let c := (s.current + 1) % s.ids.length
    do
      let v ← s.ids.get? c
      some (some v, { s with current := c })

end ISearch

/-- Modelled from the spec: the abstract message type (`message.rs` is not
among the provided sources; its variants are those matched exhaustively in
`editor.rs` and listed in the spec's external-interface section). -/
inductive Message where
  | insertNewLine
  | insertChar : Char → Message
  | insertTab
  | deleteUnderCursor
  | deleteBeforeCursor
  | cutToEndOfLine
  | undoMsg
  | redoMsg
  | forwardOneChar
  | backwardOneChar
  | jumpToBeginningOfLine
  | jumpToEndOfLine
  | jumpToNextLine
  | jumpToPreviousLine
  | noop
  | quit
  | saveMsg
  | userManual
  | searchMsg
  deriving DecidableEq, Repr

/-- `editor.rs`: the editor controller.  The `i8` flag bit set
(`DIRTY_MASK`, `SAVED_MASK`, `MANUAL_POPUP_MASK`, `PROMPT_MASK`) is modelled
as four named booleans; `&= !MASK` clears, `|= MASK` sets and `^= MASK`
toggles the corresponding boolean.  The file path and log handle play no
part in the state transitions and are omitted. -/
structure Editor where
  dirty : Bool
  saved : Bool
  popup : Bool
  prompt : Bool
  buffer : Buffer
  isearch : ISearch
  undo_manager : UndoManager
  top : Nat
  deriving DecidableEq, Repr

namespace Editor

/-- `Editor::new` on initial text `s` (as UTF-8 bytes): zero flags, buffer
initialised from the text, empty search and undo state. -/
def new (s : List Nat) : Editor :=
  { dirty := false, saved := false, popup := false, prompt := false
    buffer := Buffer.init s, isearch := ISearch.new, undo_manager := UndoManager.new
    top := 0 }

/-- `Editor::is_saved`. -/
def is_saved (e : Editor) : Bool := e.saved

/-- `Editor::is_modified`. -/
def is_modified (e : Editor) : Bool := e.dirty

/-- `Editor::toggle_prompt`: flip the prompt flag and clear the search. -/
def toggle_prompt (e : Editor) : Editor :=
  { e with prompt := !e.prompt, isearch := ISearch.new }

/-- `Editor::toggle_popup`. -/
def toggle_popup (e : Editor) : Editor := { e with popup := !e.popup }

/-- `Editor::get_current_point`: scan the before-gap bytes counting newlines
(rows) and bytes since the last newline (cols); returns `(cols, rows)`. -/
def get_current_point (e : Editor) : Nat × Nat :=
  e.buffer.before_insertion_point.foldl
    (fun p b => if b = 10 then (0, p.2 + 1) else (p.1 + 1, p.2)) (0, 0)

/-- `Editor::save`: the on-disk write is outside this embedding (it does not
touch editor state); push a checkpoint, set Saved, clear Dirty. -/
def save (e : Editor) : Editor :=
  { e with undo_manager := e.undo_manager.push .checkpoint, saved := true, dirty := false }

/-- `Editor::insert_char`: set Dirty, insert into the buffer, push the
inverse command recording the pre-insert offset. -/
def insert_char (e : Editor) (c : Char) : Option Editor := do
  let e := { e with dirty := true }
  let prev_iptr := e.buffer.iptr
  let buf ← e.buffer.insert c
  some { e with buffer := buf, undo_manager := e.undo_manager.push (.insert prev_iptr [c]) }

/-- `Editor::insert_newline`. -/
def insert_newline (e : Editor) : Option Editor := e.insert_char '\n'

/-- `Editor::insert_tab`: four spaces. -/
def insert_tab (e : Editor) : Option Editor := do
  let e ← e.insert_char ' '
  let e ← e.insert_char ' '
  let e ← e.insert_char ' '
  e.insert_char ' '

/-- `Editor::delete_before_cursor`: set Dirty; when the buffer deletion
returns bytes, record them with the post-delete offset. -/
def delete_before_cursor (e : Editor) : Option Editor := do
  let e := { e with dirty := true }
  let (r, buf) ← e.buffer.delete_before_ptr
  match r with
  | none => some { e with buffer := buf }
  | some bytes =>
    some { e with buffer := buf
                  undo_manager := e.undo_manager.push (.deleteBefore buf.iptr bytes) }

/-- `Editor::delete_under_cursor`: set Dirty; when the buffer deletion
returns bytes, record them with the (unchanged) offset. -/
def delete_under_cursor (e : Editor) : Option Editor := do
  let e := { e with dirty := true }
  let (r, buf) ← e.buffer.delete_after_ptr
  match r with
  | none => some { e with buffer := buf }
  | some bytes =>
    some { e with buffer := buf
                  undo_manager := e.undo_manager.push (.deleteAfter buf.iptr bytes) }

/-- `n` repetitions of a fallible editor operation. -/
def iterE : Nat → (Editor → Option Editor) → Editor → Option Editor
  | 0, _, e => some e
  | n + 1, f, e => do iterE n f (← f e)

/-- Column position used by `cut_to_eol` and the line jumps: bytes of `l`
before the first newline. -/
def colsUntilNewline (l : List Nat) : Nat := (l.takeWhile (· ≠ 10)).length

/-- `Editor::cut_to_eol`: count the bytes before the next newline after the
gap, run `delete_under_cursor` for `0..=cols.saturating_sub(1)` (one
iteration even when `cols = 0`), then `delete_before_cursor` when no byte
before the gap precedes the first newline (column 0). -/
def cut_to_eol (e : Editor) : Option Editor := do
  let cols := colsUntilNewline e.buffer.after_insertion_point
  let e ← iterE (cols - 1 + 1) delete_under_cursor e
  let cols2 := colsUntilNewline e.buffer.before_insertion_point.reverse
  if cols2 = 0 then e.delete_before_cursor else some e

/-- `Editor::undo`. -/
def undo (e : Editor) : Option Editor := do
  let (um, buf) ← e.undo_manager.undo e.buffer
  some { e with undo_manager := um, buffer := buf }

/-- `Editor::redo`. -/
def redo (e : Editor) : Option Editor := do
  let (um, buf) ← e.undo_manager.redo e.buffer
  some { e with undo_manager := um, buffer := buf }

/-- `Editor::forward_one_char`. -/
def forward_one_char (e : Editor) : Option Editor := do
  some { e with buffer := ← e.buffer.move_ptr_forward }

/-- `Editor::backward_one_char`. -/
def backward_one_char (e : Editor) : Option Editor := do
  some { e with buffer := ← e.buffer.move_ptr_backward }

/-- `Editor::jump_to_eol`: one forward step per byte before the next
newline after the gap. -/
def jump_to_eol (e : Editor) : Option Editor :=
  iterE (colsUntilNewline e.buffer.after_insertion_point) forward_one_char e

/-- `Editor::jump_to_bol`: one backward step per byte after the last
newline before the gap. -/
def jump_to_bol (e : Editor) : Option Editor :=
  iterE (colsUntilNewline e.buffer.before_insertion_point.reverse) backward_one_char e

/-- `Editor::jump_to_next_line`. -/
def jump_to_next_line (e : Editor) : Option Editor := do
  let point := e.get_current_point
  let e ← e.jump_to_eol
  let e ← e.forward_one_char
  let cols := colsUntilNewline e.buffer.after_insertion_point
  iterE (min point.1 cols) forward_one_char e

/-- `Editor::jump_to_previous_line`. -/
def jump_to_previous_line (e : Editor) : Option Editor := do
  let point := e.get_current_point
  let e ← e.jump_to_bol
  let e ← e.backward_one_char
  let cols := colsUntilNewline e.buffer.before_insertion_point.reverse
  iterE (cols - point.1) backward_one_char e

/-- `Editor::handle_search`: drive the search and jump to a reported offset. -/
def handle_search (e : Editor) (d : Option Char) : Option Editor := do
  let (r, is) ← e.isearch.run e.buffer d
  let e := { e with isearch := is }
  match r with
  | some id => do some { e with buffer := ← e.buffer.jump id }
  | none => some e

/-- `Editor::match_editing_buffer`: the normal-mode message table
(`Message::Quit` is a panic). -/
def match_editing_buffer (e : Editor) (m : Message) : Option Editor :=
  match m with
  | .insertNewLine => e.insert_newline
  | .insertChar c => e.insert_char c
  | .insertTab => e.insert_tab
  | .deleteUnderCursor => e.delete_under_cursor
  | .deleteBeforeCursor => e.delete_before_cursor
  | .cutToEndOfLine => e.cut_to_eol
  | .undoMsg => e.undo
  | .redoMsg => e.redo
  | .forwardOneChar => e.forward_one_char
  | .backwardOneChar => e.backward_one_char
  | .jumpToBeginningOfLine => e.jump_to_bol
  | .jumpToEndOfLine => e.jump_to_eol
  | .jumpToNextLine => e.jump_to_next_line
  | .jumpToPreviousLine => e.jump_to_previous_line
  | .noop => some e
  | .quit => none
  | .saveMsg => some e.save
  | .userManual => some e.toggle_popup
  | .searchMsg => some e.toggle_prompt

/-- `Editor::match_isearch_buffer`: the search-prompt message table. -/
def match_isearch_buffer (e : Editor) (m : Message) : Option Editor :=
  match m with
  | .insertNewLine => do
    let (r, is) ← e.isearch.fetch_next
    let e := { e with isearch := is }
    match r with
    | some id => do some { e with buffer := ← e.buffer.jump id }
    | none => some e
  | .insertChar c => e.handle_search (some c)
  | .deleteBeforeCursor => e.handle_search none
  | .noop => some e
  | .quit => none
  | _ => some e.toggle_prompt

/-- `Editor::update`: drop everything but the help toggle while the popup is
active; otherwise clear Saved, then route by the prompt flag. -/
def update (e : Editor) (m : Message) : Option Editor :=
  if e.popup ∧ m ≠ .userManual then some e
  else
    let e := { e with saved := false }
    if e.prompt then e.match_isearch_buffer m else e.match_editing_buffer m

end Editor

/-! ### Specification-side definitions

The following definitions are written from the specification's words (not
from the code); theorems below compare the embedded code against them. -/

/-- Well-formedness of a buffer state: the gap fits in the byte vector and
both the before-gap and after-gap byte runs are valid UTF-8 (hence so is the
logical content, and `iptr` is a codepoint boundary of it). -/
def wf (b : Buffer) : Prop :=
  b.iptr + b.gap_len ≤ b.bytes.length ∧
  utf8Valid b.before_insertion_point = true ∧
  utf8Valid b.after_insertion_point = true

instance (b : Buffer) : Decidable (wf b) := by unfold wf; infer_instance

/-- Drop the leading codepoint of a valid UTF-8 byte list (identity on `[]`). -/
def dropCp (l : List Nat) : List Nat := l.drop (cpLen l)

/-- Drop `n` leading codepoints. -/
def dropCps : Nat → List Nat → List Nat
  | 0, l => l
  | n + 1, l => dropCps n (dropCp l)

/-- Byte length of the trailing codepoint of a valid non-empty UTF-8 byte
list: its trailing continuation bytes plus the lead byte. -/
def lastCpLen (l : List Nat) : Nat :=
  (l.reverse.takeWhile fun v => decide (inCont v)).length + 1

/-- Remove the trailing codepoint of a valid UTF-8 byte list (`[]` stays `[]`). -/
def dropLastCp (l : List Nat) : List Nat := l.take (l.length - lastCpLen l)

/-- Spec-level description of cut-to-end-of-line on the logical content
split `(p, a)` at the cursor: count the bytes of `a` before the next line
break, delete that many codepoints forward but at least one, then delete one
codepoint backward exactly when the cursor sits at column 0 of its line. -/
def cutSpec (p a : List Nat) : List Nat × List Nat :=
  let a' := dropCps (max (Editor.colsUntilNewline a) 1) a
  if Editor.colsUntilNewline p.reverse = 0 then (dropLastCp p, a') else (p, a')

/-- The spec's merge table for `UndoEngine.push`, transcribed rule by rule:
merge the incoming command with the stack top when the corresponding offset
condition holds, replace a checkpoint top, push unmerged otherwise; every
push clears the redo stack. -/
def pushSpec (m : UndoManager) (cmd : Command) : UndoManager :=
  let undos :=
    match m.undos, cmd with
    | .insert o1 t1 :: rest, .insert o2 t2 =>
      if o1 + strLen t1 = o2 then .insert o1 (t1 ++ t2) :: rest else cmd :: m.undos
    | .deleteBefore o1 b1 :: rest, .deleteBefore o2 b2 =>
      if o2 + b2.length = o1 then .deleteBefore o2 (b2 ++ b1) :: rest else cmd :: m.undos
    | .deleteAfter o1 b1 :: rest, .deleteAfter o2 b2 =>
      if o1 = o2 then .deleteAfter o1 (b1 ++ b2) :: rest else cmd :: m.undos
    | .checkpoint :: rest, c => c :: rest
    | _, c => c :: m.undos
  { undos := undos, redos := [] }

/-- Explicit characterisation of `headCp l = some k`: the shape of a leading
well-formed UTF-8 sequence, by its length `k`. -/
def cpShape (l : List Nat) (k : Nat) : Prop :=
  (k = 1 ∧ ∃ b t, l = b :: t ∧ b ≤ 0x7F) ∨
  (k = 2 ∧ ∃ b c1 t, l = b :: c1 :: t ∧ (0xC2 ≤ b ∧ b ≤ 0xDF) ∧ inCont c1) ∨
  (k = 3 ∧ ∃ b c1 c2 t, l = b :: c1 :: c2 :: t ∧ inCont c2 ∧
    ((b = 0xE0 ∧ 0xA0 ≤ c1 ∧ c1 ≤ 0xBF) ∨
     (((0xE1 ≤ b ∧ b ≤ 0xEC) ∨ b = 0xEE ∨ b = 0xEF) ∧ inCont c1) ∨
     (b = 0xED ∧ 0x80 ≤ c1 ∧ c1 ≤ 0x9F))) ∨
  (k = 4 ∧ ∃ b c1 c2 c3 t, l = b :: c1 :: c2 :: c3 :: t ∧ inCont c2 ∧ inCont c3 ∧
    ((b = 0xF0 ∧ 0x90 ≤ c1 ∧ c1 ≤ 0xBF) ∨
     ((0xF1 ≤ b ∧ b ≤ 0xF3) ∧ inCont c1) ∨
     (b = 0xF4 ∧ 0x80 ≤ c1 ∧ c1 ≤ 0x8F)))

/-- An editor operation that never changes the Saved flag. -/
def PreservesSaved (f : Editor → Option Editor) : Prop :=
  ∀ e e', f e = some e' → e'.saved = e.saved

/-! ### Theorems -/

/-- C1: the undo round-trip property fails on the code.  Starting from the
buffer `"a"` with the cursor at offset 1 (reached by one forward move), the
single edit `Insert 'é'` followed by a single `undo()` leaves logical
content `[0xA9]` (a lone continuation byte) with `iptr = 0`, not the
original content `"a"` with `iptr = 1`: `revert_insert` walks back
byte-distance-many codepoint steps, overshooting the 2-byte character. -/
theorem c1_undo_roundtrip_fails_on_code :
    (do
      let e := Editor.new [97]
      let e ← e.update .forwardOneChar
      let e ← e.update (.insertChar 'é')
      let e ← e.update .undoMsg
      pure (e.buffer.contents, e.buffer.iptr) : Option (List Nat × Nat))
      = some ([0xA9], 0) ∧ (([0xA9], 0) : List Nat × Nat) ≠ ([97], 1) := by
  exact ⟨by decide, by decide⟩

/-- C2: the UTF-8 invariant fails on the code.  From `init "a"`, the
sequence `move_ptr_forward`, `insert 'é'`, `revert_insert 1 2` (the exact
revert an undo of that insert performs) yields logical content `[0xA9]`,
which is not valid UTF-8. -/
theorem c2_utf8_invariant_fails_on_code :
    (do
      let b ← (Buffer.init [97]).move_ptr_forward
      let b ← b.insert 'é'
      let b ← b.revert_insert 1 2
      pure (b.contents, utf8Valid b.contents) : Option (List Nat × Bool))
      = some ([0xA9], false) := by
  decide

/-- C3: the deletion primitives return the wrong bytes on multibyte
codepoints.  Deleting `'é' = [0xC3, 0xA9]` before the cursor returns the
bytes reversed (`[0xA9, 0xC3]`); deleting it after the cursor returns the
lead byte twice (`[0xC3, 0xC3]`).  Either way the returned bytes are not
the removed codepoint's bytes in original order, so re-inserting them
cannot restore the original content. -/
theorem c3_delete_returns_wrong_bytes_on_code :
    ((do
      let b ← (Buffer.init [0xC3, 0xA9]).move_ptr_forward
      let (r, _) ← b.delete_before_ptr
      pure r : Option (Option (List Nat))) = some (some [0xA9, 0xC3]) ∧
      ([0xA9, 0xC3] : List Nat) ≠ [0xC3, 0xA9]) ∧
    ((do
      let (r, _) ← (Buffer.init [0xC3, 0xA9]).delete_after_ptr
      pure r : Option (Option (List Nat))) = some (some [0xC3, 0xC3]) ∧
      ([0xC3, 0xC3] : List Nat) ≠ [0xC3, 0xA9]) := by
  exact ⟨⟨by decide, by decide⟩, ⟨by decide, by decide⟩⟩

/-- C4 counterexample: in the buffer `"x"`, typing `'a'`, moving the cursor
away and back, then typing `'b'`, then one `undo()` leaves content `"x"`:
both characters are removed (the two inserts merged), not only `'b'`
(which would leave `"ax"`). -/
theorem c4_counterexample :
    (do
      let e := Editor.new [120]
      let e ← e.update (.insertChar 'a')
      let e ← e.update .backwardOneChar
      let e ← e.update .forwardOneChar
      let e ← e.update (.insertChar 'b')
      let e ← e.update .undoMsg
      pure e.buffer.contents : Option (List Nat)) = some [120] ∧
    ([120] : List Nat) ≠ [97, 120] := by
  exact ⟨by decide, by decide⟩

/-- C4 (amended): `push` merges with the undo-stack top exactly per the
spec's four rules and always clears the redo stack (`push = pushSpec`);
typing `'a','b','c'` with no cursor movement then one `undo()` removes all
three; and typing `'a'`, moving away and back, typing `'b'`, then one
`undo()` removes BOTH `'a'` and `'b'` — cursor movement pushes no command,
so coalescing depends only on offset adjacency. -/
theorem c4_push_merges_per_table :
    (∀ (m : UndoManager) (cmd : Command), m.push cmd = pushSpec m cmd) ∧
    ((do
      let e := Editor.new []
      let e ← e.update (.insertChar 'a')
      let e ← e.update (.insertChar 'b')
      let e ← e.update (.insertChar 'c')
      let e ← e.update .undoMsg
      pure (e.buffer.contents, e.buffer.iptr) : Option (List Nat × Nat)) = some ([], 0)) ∧
    ((do
      let e := Editor.new [120]
      let e ← e.update (.insertChar 'a')
      let e ← e.update .backwardOneChar
      let e ← e.update .forwardOneChar
      let e ← e.update (.insertChar 'b')
      let e ← e.update .undoMsg
      pure e.buffer.contents : Option (List Nat)) = some [120]) := by
  refine ⟨?_, by decide, by decide⟩
  intro m cmd
  rcases m with ⟨undos, redos⟩
  cases undos with
  | nil => cases cmd <;> rfl
  | cons last rest =>
    cases last <;> cases cmd <;>
      simp only [UndoManager.push, pushSpec] <;> (try split_ifs) <;> simp_all

/-- C5: appending to an active search term does not reset the match cursor.
In buffer `"oo oo"`, after searching `'o'` (matches `[0, 1, 3, 4]`) and one
fetch-next (cursor 1), appending a second `'o'` rescans to matches `[0, 3]`
but keeps the stale cursor 1 and reports offset 3 (jumping the buffer
there), where the claim requires cursor 0 and reported offset 0. -/
theorem c5_stale_cursor_on_code :
    (do
      let e := Editor.new [111, 111, 32, 111, 111]
      let e ← e.update .searchMsg
      let e ← e.update (.insertChar 'o')
      let e ← e.update .insertNewLine
      let e ← e.update (.insertChar 'o')
      pure (e.isearch.ids, e.isearch.current, e.buffer.iptr) :
        Option (List Nat × Nat × Nat)) = some ([0, 3], 1, 3) ∧
    ((1 : Nat) ≠ 0 ∧ (3 : Nat) ≠ 0) := by
  exact ⟨by decide, by decide, by decide⟩

/-- C6: `jump` overshoots multibyte codepoints.  On `init "éa"` (bytes
`[0xC3, 0xA9, 0x61]`, `iptr = 0`), `jump 2` — offset 2 is a codepoint
boundary — ends with `iptr = 3`: the loop bound is the byte distance but
each step moves a whole codepoint. -/
theorem c6_jump_overshoots_on_code :
    (Buffer.jump (Buffer.init [0xC3, 0xA9, 0x61]) 2).map Buffer.iptr = some 3 ∧
    (3 : Nat) ≠ 2 := by
  exact ⟨by decide, by decide⟩

/-- C8: fetch-next is a no-op reporting nothing on an empty match list;
otherwise it advances the cursor by 1 modulo the match count and reports the
offset there; with matches `[4, 7, 20]` and cursor 0 repeated fetch-next
reports 7, 20, 4, 7. -/
theorem c8_fetch_next_spec :
    (∀ s : ISearch, s.ids = [] → s.fetch_next = some (none, s)) ∧
    (∀ s : ISearch, s.ids ≠ [] →
      s.fetch_next = some (some (s.ids.getD ((s.current + 1) % s.ids.length) 0),
        { s with current := (s.current + 1) % s.ids.length })) ∧
    ((do
      let (r1, s) ← ISearch.fetch_next ⟨['o'], [4, 7, 20], 0⟩
      let (r2, s) ← s.fetch_next
      let (r3, s) ← s.fetch_next
      let (r4, _) ← s.fetch_next
      pure (r1, r2, r3, r4) : Option (Option Nat × Option Nat × Option Nat × Option Nat))
      = some (some 7, some 20, some 4, some 7)) := by
  refine ⟨?_, ?_, by decide⟩
  · intro s h
    simp [ISearch.fetch_next, h]
  · intro s h
    have hlen : 0 < s.ids.length := List.length_pos.mpr h
    have hc : (s.current + 1) % s.ids.length < s.ids.length := Nat.mod_lt _ hlen
    simp only [ISearch.fetch_next, if_neg h]
    rw [List.get?_eq_get hc]
    simp [List.getD_eq_getElem?_getD, List.getElem?_eq_getElem hc]

/-- C8 witness: the two hypothetical branches instantiated concretely. -/
theorem c8_witness :
    ISearch.fetch_next ⟨[], [], 0⟩ = some (none, ⟨[], [], 0⟩) ∧
    ISearch.fetch_next ⟨['o'], [4, 7, 20], 0⟩ = some (some 7, ⟨['o'], [4, 7, 20], 1⟩) := by
  refine ⟨c8_fetch_next_spec.1 _ rfl, ?_⟩
  have h := c8_fetch_next_spec.2.1 (⟨['o'], [4, 7, 20], 0⟩ : ISearch) (by decide)
  simpa using h

/-- C9: undo/redo on an empty log, the deletion primitives at the matching
buffer edge (also through the editor, where no undo command is pushed), and
the moves at buffer end/start are silent no-ops returning an absent result
and leaving buffer and undo/redo stacks unchanged. -/
theorem c9_edge_noops :
    (∀ b : Buffer, b.iptr + b.gap_len = b.bytes.length → b.move_ptr_forward = some b) ∧
    (∀ b : Buffer, b.iptr = 0 → b.move_ptr_backward = some b) ∧
    (∀ b : Buffer, b.iptr = 0 → b.delete_before_ptr = some (none, b)) ∧
    (∀ b : Buffer, b.iptr + b.gap_len = b.bytes.length → b.delete_after_ptr = some (none, b)) ∧
    (∀ (m : UndoManager) (buf : Buffer), m.undos = [] → m.undo buf = some (m, buf)) ∧
    (∀ (m : UndoManager) (buf : Buffer), m.redos = [] → m.redo buf = some (m, buf)) ∧
    (∀ e : Editor, e.buffer.iptr = 0 →
      e.delete_before_cursor = some { e with dirty := true }) ∧
    (∀ e : Editor, e.buffer.iptr + e.buffer.gap_len = e.buffer.bytes.length →
      e.delete_under_cursor = some { e with dirty := true }) := by
  refine ⟨?_, ?_, ?_, ?_, ?_, ?_, ?_, ?_⟩
  · intro b h; unfold Buffer.move_ptr_forward; rw [if_pos h]
  · intro b h; unfold Buffer.move_ptr_backward; rw [if_pos h]
  · intro b h; unfold Buffer.delete_before_ptr; rw [if_pos h]
  · intro b h; unfold Buffer.delete_after_ptr; rw [if_pos h]
  · intro m buf h; rcases m with ⟨undos, redos⟩; dsimp at h; subst h; rfl
  · intro m buf h; rcases m with ⟨undos, redos⟩; dsimp at h; subst h; rfl
  · intro e h
    have hd : e.buffer.delete_before_ptr = some (none, e.buffer) := by
      unfold Buffer.delete_before_ptr; rw [if_pos h]
    simp [Editor.delete_before_cursor, hd]
  · intro e h
    have hd : e.buffer.delete_after_ptr = some (none, e.buffer) := by
      unfold Buffer.delete_after_ptr; rw [if_pos h]
    simp [Editor.delete_under_cursor, hd]

theorem psIter (f : Editor → Option Editor) (hf : PreservesSaved f) :
    ∀ n, PreservesSaved (Editor.iterE n f) := by
  intro n
  induction n with
  | zero => intro e e' h; simp [Editor.iterE] at h; rw [h]
  | succ n ih =>
    intro e e' h
    simp only [Editor.iterE] at h
    cases hx : f e with
    | none => rw [hx] at h; simp at h
    | some x => rw [hx] at h; simp at h; exact (ih x e' h).trans (hf e x hx)

theorem ps_forward : PreservesSaved Editor.forward_one_char := by
  intro e e' h
  simp only [Editor.forward_one_char] at h
  cases hx : e.buffer.move_ptr_forward with
  | none => rw [hx] at h; simp at h
  | some x => rw [hx] at h; simp at h; rw [← h]

theorem ps_backward : PreservesSaved Editor.backward_one_char := by
  intro e e' h
  simp only [Editor.backward_one_char] at h
  cases hx : e.buffer.move_ptr_backward with
  | none => rw [hx] at h; simp at h
  | some x => rw [hx] at h; simp at h; rw [← h]

theorem ps_insert_char (c : Char) : PreservesSaved (fun e => e.insert_char c) := by
  intro e e' h
  simp only [Editor.insert_char] at h
  cases hx : e.buffer.insert c with
  | none => rw [hx] at h; simp at h
  | some x => rw [hx] at h; simp at h; rw [← h]

theorem ps_delete_before : PreservesSaved Editor.delete_before_cursor := by
  intro e e' h
  simp only [Editor.delete_before_cursor] at h
  cases hx : e.buffer.delete_before_ptr with
  | none => rw [hx] at h; simp at h
  | some x =>
    rw [hx] at h
    obtain ⟨r, buf⟩ := x
    cases r <;> simp at h <;> rw [← h]

theorem ps_delete_under : PreservesSaved Editor.delete_under_cursor := by
  intro e e' h
  simp only [Editor.delete_under_cursor] at h
  cases hx : e.buffer.delete_after_ptr with
  | none => rw [hx] at h; simp at h
  | some x =>
    rw [hx] at h
    obtain ⟨r, buf⟩ := x
    cases r <;> simp at h <;> rw [← h]

theorem ps_cut : PreservesSaved Editor.cut_to_eol := by
  intro e e' h
  simp only [Editor.cut_to_eol] at h
  cases hx : Editor.iterE (Editor.colsUntilNewline e.buffer.after_insertion_point - 1 + 1)
      Editor.delete_under_cursor e with
  | none => rw [hx] at h; simp at h
  | some x =>
    rw [hx] at h
    simp at h
    have h1 := psIter _ ps_delete_under _ _ _ hx
    split_ifs at h
    · exact (ps_delete_before _ _ h).trans h1
    · simp at h; rw [← h]; exact h1

theorem ps_undo : PreservesSaved Editor.undo := by
  intro e e' h
  simp only [Editor.undo] at h
  cases hx : e.undo_manager.undo e.buffer with
  | none => rw [hx] at h; simp at h
  | some x => rw [hx] at h; obtain ⟨um, buf⟩ := x; simp at h; rw [← h]

theorem ps_redo : PreservesSaved Editor.redo := by
  intro e e' h
  simp only [Editor.redo] at h
  cases hx : e.undo_manager.redo e.buffer with
  | none => rw [hx] at h; simp at h
  | some x => rw [hx] at h; obtain ⟨um, buf⟩ := x; simp at h; rw [← h]

theorem ps_insert_tab : PreservesSaved Editor.insert_tab := by
  intro e e' h
  simp only [Editor.insert_tab] at h
  cases h1 : e.insert_char ' ' with
  | none => rw [h1] at h; simp at h
  | some x1 =>
    rw [h1] at h; simp at h
    cases h2 : x1.insert_char ' ' with
    | none => rw [h2] at h; simp at h
    | some x2 =>
      rw [h2] at h; simp at h
      cases h3 : x2.insert_char ' ' with
      | none => rw [h3] at h; simp at h
      | some x3 =>
        rw [h3] at h; simp at h
        exact (ps_insert_char ' ' _ _ h).trans
          (((ps_insert_char ' ' _ _ h3).trans
            ((ps_insert_char ' ' _ _ h2).trans (ps_insert_char ' ' _ _ h1))))

theorem ps_jump_eol : PreservesSaved Editor.jump_to_eol := by
  intro e e' h
  exact psIter _ ps_forward _ _ _ h

theorem ps_jump_bol : PreservesSaved Editor.jump_to_bol := by
  intro e e' h
  exact psIter _ ps_backward _ _ _ h

theorem ps_jump_next : PreservesSaved Editor.jump_to_next_line := by
  intro e e' h
  simp only [Editor.jump_to_next_line] at h
  cases h1 : e.jump_to_eol with
  | none => rw [h1] at h; simp at h
  | some x1 =>
    rw [h1] at h; simp at h
    cases h2 : x1.forward_one_char with
    | none => rw [h2] at h; simp at h
    | some x2 =>
      rw [h2] at h; simp at h
      exact (psIter _ ps_forward _ _ _ h).trans
        ((ps_forward _ _ h2).trans (ps_jump_eol _ _ h1))

theorem ps_jump_prev : PreservesSaved Editor.jump_to_previous_line := by
  intro e e' h
  simp only [Editor.jump_to_previous_line] at h
  cases h1 : e.jump_to_bol with
  | none => rw [h1] at h; simp at h
  | some x1 =>
    rw [h1] at h; simp at h
    cases h2 : x1.backward_one_char with
    | none => rw [h2] at h; simp at h
    | some x2 =>
      rw [h2] at h; simp at h
      exact (psIter _ ps_backward _ _ _ h).trans
        ((ps_backward _ _ h2).trans (ps_jump_bol _ _ h1))

theorem ps_handle_search (d : Option Char) : PreservesSaved (fun e => e.handle_search d) := by
  intro e e' h
  simp only [Editor.handle_search] at h
  cases hx : e.isearch.run e.buffer d with
  | none => rw [hx] at h; simp at h
  | some x =>
    rw [hx] at h
    obtain ⟨r, is⟩ := x
    cases r with
    | none => simp at h; rw [← h]
    | some id =>
      simp at h
      cases hj : e.buffer.jump id with
      | none => rw [hj] at h; simp at h
      | some buf => rw [hj] at h; simp at h; rw [← h]

theorem match_editing_saved (e : Editor) (m : Message) (e' : Editor) (hm : m ≠ .saveMsg)
    (h : e.match_editing_buffer m = some e') : e'.saved = e.saved := by
  cases m with
  | insertNewLine => exact ps_insert_char '\n' _ _ h
  | insertChar c => exact ps_insert_char c _ _ h
  | insertTab => exact ps_insert_tab _ _ h
  | deleteUnderCursor => exact ps_delete_under _ _ h
  | deleteBeforeCursor => exact ps_delete_before _ _ h
  | cutToEndOfLine => exact ps_cut _ _ h
  | undoMsg => exact ps_undo _ _ h
  | redoMsg => exact ps_redo _ _ h
  | forwardOneChar => exact ps_forward _ _ h
  | backwardOneChar => exact ps_backward _ _ h
  | jumpToBeginningOfLine => exact ps_jump_bol _ _ h
  | jumpToEndOfLine => exact ps_jump_eol _ _ h
  | jumpToNextLine => exact ps_jump_next _ _ h
  | jumpToPreviousLine => exact ps_jump_prev _ _ h
  | noop => simp [Editor.match_editing_buffer] at h; rw [← h]
  | quit => simp [Editor.match_editing_buffer] at h
  | saveMsg => exact absurd rfl hm
  | userManual => simp [Editor.match_editing_buffer, Editor.toggle_popup] at h; rw [← h]
  | searchMsg => simp [Editor.match_editing_buffer, Editor.toggle_prompt] at h; rw [← h]

theorem match_isearch_saved (e : Editor) (m : Message) (e' : Editor)
    (h : e.match_isearch_buffer m = some e') : e'.saved = e.saved := by
  cases m with
  | insertNewLine =>
    simp only [Editor.match_isearch_buffer] at h
    cases hx : e.isearch.fetch_next with
    | none => rw [hx] at h; simp at h
    | some x =>
      rw [hx] at h
      obtain ⟨r, is⟩ := x
      cases r with
      | none => simp at h; rw [← h]
      | some id =>
        simp at h
        cases hj : e.buffer.jump id with
        | none => rw [hj] at h; simp at h
        | some buf => rw [hj] at h; simp at h; rw [← h]
  | insertChar c => exact ps_handle_search (some c) _ _ h
  | deleteBeforeCursor => exact ps_handle_search none _ _ h
  | noop => simp [Editor.match_isearch_buffer] at h; rw [← h]
  | quit => simp [Editor.match_isearch_buffer] at h
  | insertTab => simp [Editor.match_isearch_buffer, Editor.toggle_prompt] at h; rw [← h]
  | deleteUnderCursor => simp [Editor.match_isearch_buffer, Editor.toggle_prompt] at h; rw [← h]
  | cutToEndOfLine => simp [Editor.match_isearch_buffer, Editor.toggle_prompt] at h; rw [← h]
  | undoMsg => simp [Editor.match_isearch_buffer, Editor.toggle_prompt] at h; rw [← h]
  | redoMsg => simp [Editor.match_isearch_buffer, Editor.toggle_prompt] at h; rw [← h]
  | forwardOneChar => simp [Editor.match_isearch_buffer, Editor.toggle_prompt] at h; rw [← h]
  | backwardOneChar => simp [Editor.match_isearch_buffer, Editor.toggle_prompt] at h; rw [← h]
  | jumpToBeginningOfLine => simp [Editor.match_isearch_buffer, Editor.toggle_prompt] at h; rw [← h]
  | jumpToEndOfLine => simp [Editor.match_isearch_buffer, Editor.toggle_prompt] at h; rw [← h]
  | jumpToNextLine => simp [Editor.match_isearch_buffer, Editor.toggle_prompt] at h; rw [← h]
  | jumpToPreviousLine => simp [Editor.match_isearch_buffer, Editor.toggle_prompt] at h; rw [← h]
  | saveMsg => simp [Editor.match_isearch_buffer, Editor.toggle_prompt] at h; rw [← h]
  | userManual => simp [Editor.match_isearch_buffer, Editor.toggle_prompt] at h; rw [← h]
  | searchMsg => simp [Editor.match_isearch_buffer, Editor.toggle_prompt] at h; rw [← h]

/-- C10: with the help popup inactive, every dispatched message clears the
Saved flag before routing — cursor movements, Noop and search-prompt input
included — so `is_saved()` is false after any dispatched message other than
Save, while Save itself (in editing mode) re-sets the flag. -/
theorem c10_saved_cleared :
    (∀ (e : Editor) (m : Message) (e' : Editor), e.popup = false → m ≠ .saveMsg →
      e.update m = some e' → e'.is_saved = false) ∧
    (∀ e : Editor, e.popup = false → e.prompt = false →
      (e.update .saveMsg).map Editor.is_saved = some true) := by
  constructor
  · intro e m e' hp hm h
    simp only [Editor.update, hp] at h
    simp at h
    by_cases hpr : e.prompt
    · rw [if_pos hpr] at h
      exact match_isearch_saved _ _ _ h
    · rw [if_neg hpr] at h
      exact match_editing_saved _ _ _ hm h
  · intro e hp hpr
    simp only [Editor.update, hp]
    simp [hpr, Editor.match_editing_buffer, Editor.save, Editor.is_saved]

/-- C10 witness: a fresh editor dispatched Noop reports unsaved; dispatched
Save reports saved. -/
theorem c10_witness :
    ((Editor.new []).update .noop).map Editor.is_saved = some false ∧
    ((Editor.new []).update .saveMsg).map Editor.is_saved = some true := by
  constructor
  · have h : (Editor.new []).update .noop = some { Editor.new [] with saved := false } := by
      decide
    rw [h]
    exact congrArg some (c10_saved_cleared.1 _ _ _ rfl (by decide) h)
  · exact c10_saved_cleared.2 _ rfl rfl

/-- C9 witness: each edge condition instantiated concretely. -/
theorem c9_witness :
    Buffer.move_ptr_forward ⟨0, 0, []⟩ = some ⟨0, 0, []⟩ ∧
    Buffer.move_ptr_backward ⟨0, 0, []⟩ = some ⟨0, 0, []⟩ ∧
    Buffer.delete_before_ptr ⟨0, 0, []⟩ = some (none, ⟨0, 0, []⟩) ∧
    Buffer.delete_after_ptr ⟨0, 0, []⟩ = some (none, ⟨0, 0, []⟩) ∧
    UndoManager.undo ⟨[], []⟩ ⟨0, 0, []⟩ = some (⟨[], []⟩, ⟨0, 0, []⟩) ∧
    UndoManager.redo ⟨[], []⟩ ⟨0, 0, []⟩ = some (⟨[], []⟩, ⟨0, 0, []⟩) ∧
    Editor.delete_before_cursor (Editor.new []) = some { Editor.new [] with dirty := true } ∧
    Editor.delete_under_cursor (Editor.new []) = some { Editor.new [] with dirty := true } := by
  exact ⟨c9_edge_noops.1 _ rfl, c9_edge_noops.2.1 _ rfl, c9_edge_noops.2.2.1 _ rfl,
    c9_edge_noops.2.2.2.1 _ rfl, c9_edge_noops.2.2.2.2.1 _ _ rfl,
    c9_edge_noops.2.2.2.2.2.1 _ _ rfl, c9_edge_noops.2.2.2.2.2.2.1 _ rfl,
    c9_edge_noops.2.2.2.2.2.2.2 _ (by decide)⟩

end Kame

namespace Kame

set_option maxHeartbeats 2000000 in
theorem headCp_eq_some_iff (l : List Nat) (k : Nat) : headCp l = some k ↔ cpShape l k := by
  constructor
  · intro h
    cases l with
    | nil => simp [headCp] at h
    | cons b r =>
      simp only [headCp] at h
      split_ifs at h with h1 h2 h3 h4 h5 h6 h7 h8
      · exact Or.inl ⟨(Option.some.inj h).symm, b, r, rfl, h1⟩
      · cases r with
        | nil => simp at h
        | cons c1 r2 =>
          simp only [] at h
          split_ifs at h with hc
          exact Or.inr (Or.inl ⟨(Option.some.inj h).symm, b, c1, r2, rfl, h2, hc⟩)
      · cases r with
        | nil => simp at h
        | cons c1 r2 =>
          cases r2 with
          | nil => simp at h
          | cons c2 r3 =>
            simp only [] at h
            split_ifs at h with hc
            exact Or.inr (Or.inr (Or.inl ⟨(Option.some.inj h).symm, b, c1, c2, r3, rfl,
              hc.2, Or.inl ⟨h3, hc.1⟩⟩))
      · cases r with
        | nil => simp at h
        | cons c1 r2 =>
          cases r2 with
          | nil => simp at h
          | cons c2 r3 =>
            simp only [] at h
            split_ifs at h with hc
            exact Or.inr (Or.inr (Or.inl ⟨(Option.some.inj h).symm, b, c1, c2, r3, rfl,
              hc.2, Or.inr (Or.inl ⟨h4, hc.1⟩)⟩))
      · cases r with
        | nil => simp at h
        | cons c1 r2 =>
          cases r2 with
          | nil => simp at h
          | cons c2 r3 =>
            simp only [] at h
            split_ifs at h with hc
            exact Or.inr (Or.inr (Or.inl ⟨(Option.some.inj h).symm, b, c1, c2, r3, rfl,
              hc.2, Or.inr (Or.inr ⟨h5, hc.1⟩)⟩))
      · cases r with
        | nil => simp at h
        | cons c1 r2 =>
          cases r2 with
          | nil => simp at h
          | cons c2 r3 =>
            cases r3 with
            | nil => simp at h
            | cons c3 r4 =>
              simp only [] at h
              split_ifs at h with hc
              exact Or.inr (Or.inr (Or.inr ⟨(Option.some.inj h).symm, b, c1, c2, c3, r4, rfl,
                hc.2.1, hc.2.2, Or.inl ⟨h6, hc.1⟩⟩))
      · cases r with
        | nil => simp at h
        | cons c1 r2 =>
          cases r2 with
          | nil => simp at h
          | cons c2 r3 =>
            cases r3 with
            | nil => simp at h
            | cons c3 r4 =>
              simp only [] at h
              split_ifs at h with hc
              exact Or.inr (Or.inr (Or.inr ⟨(Option.some.inj h).symm, b, c1, c2, c3, r4, rfl,
                hc.2.1, hc.2.2, Or.inr (Or.inl ⟨h7, hc.1⟩)⟩))
      · cases r with
        | nil => simp at h
        | cons c1 r2 =>
          cases r2 with
          | nil => simp at h
          | cons c2 r3 =>
            cases r3 with
            | nil => simp at h
            | cons c3 r4 =>
              simp only [] at h
              split_ifs at h with hc
              exact Or.inr (Or.inr (Or.inr ⟨(Option.some.inj h).symm, b, c1, c2, c3, r4, rfl,
                hc.2.1, hc.2.2, Or.inr (Or.inr ⟨h8, hc.1⟩)⟩))
  · intro h
    rcases h with ⟨hk, b, t, rfl, hb⟩ | ⟨hk, b, c1, t, rfl, hb, hc⟩ |
      ⟨hk, b, c1, c2, t, rfl, hc2, hb⟩ | ⟨hk, b, c1, c2, c3, t, rfl, hc2, hc3, hb⟩
    · subst hk
      simp only [headCp]
      rw [if_pos hb]
    · subst hk
      simp only [headCp]
      split_ifs <;> first | rfl | (exfalso; (try simp only [inCont] at *); omega)
    · subst hk
      rcases hb with ⟨rfl, hA, hB⟩ | ⟨hrange, hc1⟩ | ⟨rfl, hA, hB⟩ <;>
        (simp only [headCp];
         split_ifs <;> first | rfl | (exfalso; (try simp only [inCont] at *); omega))
    · subst hk
      rcases hb with ⟨rfl, hA, hB⟩ | ⟨hrange, hc1⟩ | ⟨rfl, hA, hB⟩ <;>
        (simp only [headCp];
         split_ifs <;> first | rfl | (exfalso; (try simp only [inCont] at *); omega))

end Kame

namespace Kame

theorem headCp_pos_le {l : List Nat} {k : Nat} (h : headCp l = some k) :
    1 ≤ k ∧ k ≤ 4 ∧ k ≤ l.length := by
  rw [headCp_eq_some_iff] at h
  rcases h with ⟨rfl, b, t, rfl, hb⟩ | ⟨rfl, b, c1, t, rfl, hb, hc⟩ |
    ⟨rfl, b, c1, c2, t, rfl, hc2, hb⟩ | ⟨rfl, b, c1, c2, c3, t, rfl, hc2, hc3, hb⟩ <;>
    simp <;> omega

theorem headCp_take {l : List Nat} {k : Nat} (h : headCp l = some k) {m : Nat} (hm : k ≤ m) :
    headCp (l.take m) = some k := by
  rw [headCp_eq_some_iff] at h ⊢
  obtain ⟨m', rfl⟩ : ∃ m', m = k + m' := ⟨m - k, by omega⟩
  rcases h with ⟨rfl, b, t, rfl, hb⟩ | ⟨rfl, b, c1, t, rfl, hb, hc⟩ |
    ⟨rfl, b, c1, c2, t, rfl, hc2, hb⟩ | ⟨rfl, b, c1, c2, c3, t, rfl, hc2, hc3, hb⟩
  · rw [show 1 + m' = m' + 1 by omega]
    simp only [List.take_succ_cons]
    exact Or.inl ⟨rfl, b, _, rfl, hb⟩
  · rw [show 2 + m' = m' + 1 + 1 by omega]
    simp only [List.take_succ_cons]
    exact Or.inr (Or.inl ⟨rfl, b, c1, _, rfl, hb, hc⟩)
  · rw [show 3 + m' = m' + 1 + 1 + 1 by omega]
    simp only [List.take_succ_cons]
    exact Or.inr (Or.inr (Or.inl ⟨rfl, b, c1, c2, _, rfl, hc2, hb⟩))
  · rw [show 4 + m' = m' + 1 + 1 + 1 + 1 by omega]
    simp only [List.take_succ_cons]
    exact Or.inr (Or.inr (Or.inr ⟨rfl, b, c1, c2, c3, _, rfl, hc2, hc3, hb⟩))

theorem headCp_append {l : List Nat} {k : Nat} (h : headCp l = some k) (y : List Nat) :
    headCp (l ++ y) = some k := by
  rw [headCp_eq_some_iff] at h ⊢
  rcases h with ⟨rfl, b, t, rfl, hb⟩ | ⟨rfl, b, c1, t, rfl, hb, hc⟩ |
    ⟨rfl, b, c1, c2, t, rfl, hc2, hb⟩ | ⟨rfl, b, c1, c2, c3, t, rfl, hc2, hc3, hb⟩
  · exact Or.inl ⟨rfl, b, _, rfl, hb⟩
  · exact Or.inr (Or.inl ⟨rfl, b, c1, _, rfl, hb, hc⟩)
  · exact Or.inr (Or.inr (Or.inl ⟨rfl, b, c1, c2, _, rfl, hc2, hb⟩))
  · exact Or.inr (Or.inr (Or.inr ⟨rfl, b, c1, c2, c3, _, rfl, hc2, hc3, hb⟩))

theorem cont_not_head {v : Nat} (hv : inCont v) (t : List Nat) : headCp (v :: t) = none := by
  cases hcp : headCp (v :: t) with
  | none => rfl
  | some k =>
    exfalso
    rw [headCp_eq_some_iff] at hcp
    obtain ⟨hv1, hv2⟩ := hv
    rcases hcp with ⟨_, b, t', heq, hb⟩ | ⟨_, b, c1, t', heq, hb, hc⟩ |
      ⟨_, b, c1, c2, t', heq, hc2, hb⟩ | ⟨_, b, c1, c2, c3, t', heq, hc2, hc3, hb⟩ <;>
      simp only [List.cons.injEq] at heq <;> obtain ⟨rfl, -⟩ := heq <;> omega

theorem headCp_cpLen {l : List Nat} {k : Nat} (h : headCp l = some k) : cpLen l = k := by
  rw [headCp_eq_some_iff] at h
  rcases h with ⟨rfl, b, t, rfl, hb⟩ | ⟨rfl, b, c1, t, rfl, hb, hc⟩ |
    ⟨rfl, b, c1, c2, t, rfl, hc2, hb⟩ | ⟨rfl, b, c1, c2, c3, t, rfl, hc2, hc3, hb⟩ <;>
    (simp only [cpLen]; split_ifs <;> omega)

end Kame

namespace Kame

theorem utf8ValidFuel_irrel :
    ∀ (f : Nat) (l : List Nat) (g : Nat), l.length ≤ f → l.length ≤ g →
      utf8ValidFuel f l = utf8ValidFuel g l := by
  intro f
  induction f with
  | zero =>
    intro l g h1 h2
    cases l with
    | nil => cases g <;> rfl
    | cons b r => simp at h1
  | succ f ih =>
    intro l g h1 h2
    cases l with
    | nil => cases g <;> rfl
    | cons b r =>
      cases g with
      | zero => simp at h2
      | succ g =>
        simp only [utf8ValidFuel]
        cases hcp : headCp (b :: r) with
        | none => rfl
        | some k =>
          have hk := headCp_pos_le hcp
          apply ih
          · simp only [List.length_drop]
            simp at h1 ⊢
            omega
          · simp only [List.length_drop]
            simp at h2 ⊢
            omega

theorem utf8Valid_eq_headCp (l : List Nat) (h : l ≠ []) :
    utf8Valid l =
      (match headCp l with | some k => utf8Valid (l.drop k) | none => false) := by
  cases l with
  | nil => exact absurd rfl h
  | cons b r =>
    show utf8ValidFuel (b :: r).length (b :: r) = _
    simp only [List.length_cons, utf8ValidFuel]
    cases hcp : headCp (b :: r) with
    | none => rfl
    | some k =>
      have hk := headCp_pos_le hcp
      simp only []
      apply utf8ValidFuel_irrel
      · simp only [List.length_drop]
        simp at hk ⊢
        omega
      · exact le_refl _

theorem valid_decomp {l : List Nat} (h : utf8Valid l = true) (hne : l ≠ []) :
    ∃ k, headCp l = some k ∧ utf8Valid (l.drop k) = true := by
  rw [utf8Valid_eq_headCp l hne] at h
  cases hcp : headCp l with
  | none => rw [hcp] at h; simp at h
  | some k => rw [hcp] at h; exact ⟨k, rfl, h⟩

theorem valid_compose {l : List Nat} {k : Nat} (hcp : headCp l = some k)
    (h : utf8Valid (l.drop k) = true) : utf8Valid l = true := by
  have hne : l ≠ [] := by rintro rfl; simp [headCp] at hcp
  rw [utf8Valid_eq_headCp l hne, hcp]
  exact h

theorem valid_take_k {l : List Nat} {k : Nat} (hcp : headCp l = some k) :
    utf8Valid (l.take k) = true := by
  apply valid_compose (headCp_take hcp (le_refl k))
  have hd : (l.take k).drop k = [] := by
    apply List.drop_eq_nil_of_le
    simp
  rw [hd]
  rfl

theorem valid_append_cp {c : List Nat} (hcp : headCp c = some c.length) {y : List Nat}
    (hy : utf8Valid y = true) : utf8Valid (c ++ y) = true := by
  apply valid_compose (headCp_append hcp y)
  rw [List.drop_left]
  exact hy

end Kame

namespace Kame

set_option maxHeartbeats 2000000 in
theorem headCp_take_none {l : List Nat} {k m : Nat} (h : headCp l = some k) (hm : 0 < m)
    (hlt : m < k) : headCp (l.take m) = none := by
  cases hcm : headCp (l.take m) with
  | none => rfl
  | some q =>
    exfalso
    rw [headCp_eq_some_iff] at h hcm
    rcases h with ⟨rfl, b, t, rfl, hb⟩ | ⟨rfl, b, c1, t, rfl, hb, hc⟩ |
      ⟨rfl, b, c1, c2, t, rfl, hc2, hb⟩ | ⟨rfl, b, c1, c2, c3, t, rfl, hc2, hc3, hb⟩
    · omega
    · interval_cases m
      simp only [cpShape, List.take_succ_cons, List.take_zero] at hcm
      rcases hcm with ⟨_, b', t', heq, hb'⟩ | ⟨_, b', c1', t', heq, hb', hc'⟩ |
        ⟨_, b', c1', c2', t', heq, hc2', hb'⟩ | ⟨_, b', c1', c2', c3', t', heq, hc2', hc3', hb'⟩ <;>
        simp only [List.cons.injEq] at heq <;> simp_all [inCont] <;> omega
    · interval_cases m <;>
        (simp only [cpShape, List.take_succ_cons, List.take_zero] at hcm;
         rcases hcm with ⟨_, b', t', heq, hb'⟩ | ⟨_, b', c1', t', heq, hb', hc'⟩ |
          ⟨_, b', c1', c2', t', heq, hc2', hb'⟩ | ⟨_, b', c1', c2', c3', t', heq, hc2', hc3', hb'⟩ <;>
         simp only [List.cons.injEq] at heq <;> simp_all [inCont] <;> omega)
    · interval_cases m <;>
        (simp only [cpShape, List.take_succ_cons, List.take_zero] at hcm;
         rcases hcm with ⟨_, b', t', heq, hb'⟩ | ⟨_, b', c1', t', heq, hb', hc'⟩ |
          ⟨_, b', c1', c2', t', heq, hc2', hb'⟩ | ⟨_, b', c1', c2', c3', t', heq, hc2', hc3', hb'⟩ <;>
         simp only [List.cons.injEq] at heq <;> simp_all [inCont] <;> omega)

theorem valid_take_lt {l : List Nat} {k m : Nat} (h : headCp l = some k) (hm : 0 < m)
    (hlt : m < k) : utf8Valid (l.take m) = false := by
  have hne : l.take m ≠ [] := by
    have hk := (headCp_pos_le h).2.2
    intro hcon
    have hlen := congrArg List.length hcon
    rw [List.length_take, List.length_nil] at hlen
    omega
  rw [utf8Valid_eq_headCp _ hne, headCp_take_none h hm hlt]

end Kame

namespace Kame

theorem cp_explicit {c : List Nat} (h : headCp c = some c.length) :
    ∃ b0 cs, c = b0 :: cs ∧ ¬ inCont b0 ∧ (∀ v ∈ cs, inCont v) := by
  rw [headCp_eq_some_iff] at h
  rcases h with ⟨hk, b, t, heq, hb⟩ | ⟨hk, b, c1, t, heq, hb, hc⟩ |
    ⟨hk, b, c1, c2, t, heq, hc2, hb⟩ | ⟨hk, b, c1, c2, c3, t, heq, hc2, hc3, hb⟩ <;> subst heq
  · have ht : t = [] := by
      simp at hk
      exact hk
    subst ht
    exact ⟨b, [], rfl, by simp [inCont]; omega, by simp⟩
  · have ht : t = [] := by
      simp at hk
      exact hk
    subst ht
    refine ⟨b, [c1], rfl, by simp [inCont]; omega, ?_⟩
    intro v hv
    simp at hv
    subst hv
    exact hc
  · have ht : t = [] := by
      simp at hk
      exact hk
    subst ht
    refine ⟨b, [c1, c2], rfl, by simp [inCont]; rcases hb with ⟨rfl, h1, h2⟩ | ⟨hr, h1⟩ | ⟨rfl, h1, h2⟩ <;> omega, ?_⟩
    intro v hv
    simp at hv
    rcases hv with rfl | rfl
    · simp only [inCont]
      rcases hb with ⟨rfl, h1, h2⟩ | ⟨hr, h1, h2⟩ | ⟨rfl, h1, h2⟩ <;> constructor <;> omega
    · exact hc2
  · have ht : t = [] := by
      simp at hk
      exact hk
    subst ht
    refine ⟨b, [c1, c2, c3], rfl, by simp [inCont]; rcases hb with ⟨rfl, h1, h2⟩ | ⟨hr, h1⟩ | ⟨rfl, h1, h2⟩ <;> omega, ?_⟩
    intro v hv
    simp at hv
    rcases hv with rfl | rfl | rfl
    · simp only [inCont]
      rcases hb with ⟨rfl, h1, h2⟩ | ⟨hr, h1, h2⟩ | ⟨rfl, h1, h2⟩ <;> constructor <;> omega
    · exact hc2
    · exact hc3

theorem valid_last_decomp_aux :
    ∀ (n : Nat) (p : List Nat), p.length ≤ n → utf8Valid p = true → p ≠ [] →
      ∃ q c, p = q ++ c ∧ utf8Valid q = true ∧ headCp c = some c.length ∧ c ≠ [] := by
  intro n
  induction n with
  | zero =>
    intro p hl _ hne
    cases p with
    | nil => exact absurd rfl hne
    | cons b r => simp at hl
  | succ n ih =>
    intro p hl hv hne
    obtain ⟨k, hcp, hrest⟩ := valid_decomp hv hne
    have hk := headCp_pos_le hcp
    by_cases hr : p.drop k = []
    · refine ⟨[], p, by simp, rfl, ?_, hne⟩
      have hkp : k = p.length := by
        have := congrArg List.length hr
        simp at this
        omega
      rw [← hkp]
      exact hcp
    · have hlen : (p.drop k).length ≤ n := by
        simp only [List.length_drop]
        omega
      obtain ⟨q', c, heq, hq', hc, hcne⟩ := ih (p.drop k) hlen hrest hr
      have htk : headCp (p.take k) = some (p.take k).length := by
        have hlt : (p.take k).length = k := by
          rw [List.length_take]
          omega
        rw [hlt]
        exact headCp_take hcp (le_refl k)
      refine ⟨p.take k ++ q', c, ?_, valid_append_cp htk hq', hc, hcne⟩
      rw [List.append_assoc, ← heq, List.take_append_drop]

theorem valid_last_decomp {p : List Nat} (hv : utf8Valid p = true) (hne : p ≠ []) :
    ∃ q c, p = q ++ c ∧ utf8Valid q = true ∧ headCp c = some c.length ∧ c ≠ [] :=
  valid_last_decomp_aux p.length p (le_refl _) hv hne

theorem takeWhile_append_all {P : Nat → Bool} {xs : List Nat} (hxs : ∀ v ∈ xs, P v = true)
    {y : Nat} (hy : P y = false) (rest : List Nat) :
    (xs ++ y :: rest).takeWhile P = xs := by
  induction xs with
  | nil => simp [List.takeWhile_cons, hy]
  | cons x xs ih =>
    have hx : P x = true := hxs x (by simp)
    have ih2 := ih fun v hv => hxs v (by simp [hv])
    simp [List.takeWhile_cons, hx, ih2]

theorem lastCpLen_eq {q c : List Nat} (hc : headCp c = some c.length) :
    lastCpLen (q ++ c) = c.length := by
  obtain ⟨b0, cs, rfl, hb0, hcs⟩ := cp_explicit hc
  unfold lastCpLen
  rw [List.reverse_append, List.reverse_cons, List.append_assoc, List.singleton_append]
  rw [takeWhile_append_all (fun v hv => by
        simp only [decide_eq_true_eq]
        exact hcs v (List.mem_reverse.mp hv))
      (by simp only [decide_eq_false_iff_not]; exact hb0) _]
  simp

theorem dropLastCp_eq {q c : List Nat} (hc : headCp c = some c.length) :
    dropLastCp (q ++ c) = q := by
  unfold dropLastCp
  rw [lastCpLen_eq hc, List.length_append]
  have harith : q.length + c.length - c.length = q.length := by omega
  rw [harith, List.take_left]

theorem cp_suffix_invalid {c : List Nat} (h : headCp c = some c.length) {j : Nat} (hj : 0 < j)
    (hlt : j < c.length) : utf8Valid (c.drop (c.length - j)) = false := by
  obtain ⟨b0, cs, rfl, hb0, hcs⟩ := cp_explicit h
  have hlen : (b0 :: cs).length = cs.length + 1 := by simp
  obtain ⟨i', hi⟩ : ∃ i', (b0 :: cs).length - j = i' + 1 := by
    refine ⟨cs.length - j, ?_⟩
    simp at hlt ⊢
    omega
  rw [hi, List.drop_succ_cons]
  have hi' : i' < cs.length := by
    simp at hlt
    omega
  cases hd : cs.drop i' with
  | nil =>
    exfalso
    have := congrArg List.length hd
    simp at this
    omega
  | cons v t' =>
    have hv : v ∈ cs := List.drop_subset i' cs (by rw [hd]; exact List.mem_cons_self v t')
    rw [utf8Valid_eq_headCp (v :: t') (by simp), cont_not_head (hcs v hv) t']

end Kame

namespace Kame

theorem getB_after {b : Buffer} {v : Nat} {t : List Nat}
    (ha : b.after_insertion_point = v :: t) :
    getB b.bytes (b.iptr + b.gap_len) = some v := by
  have h0 : (b.bytes.drop (b.iptr + b.gap_len)).get? 0 = some v := by
    rw [show b.bytes.drop (b.iptr + b.gap_len) = v :: t from ha]
    rfl
  rw [List.get?_drop] at h0
  exact h0

theorem sliceB_after {b : Buffer} (hwf : b.iptr + b.gap_len ≤ b.bytes.length) {m : Nat}
    (hm : m ≤ b.after_insertion_point.length) (hm0 : 0 < m) :
    sliceB b.bytes (b.iptr + b.gap_len) (b.iptr + b.gap_len + m) =
      some (b.after_insertion_point.take m) := by
  have hlen : b.after_insertion_point.length = b.bytes.length - (b.iptr + b.gap_len) := by
    simp [Buffer.after_insertion_point]
  unfold sliceB
  rw [if_pos ⟨by omega, by omega⟩]
  congr 1
  have : b.iptr + b.gap_len + m - (b.iptr + b.gap_len) = m := by omega
  rw [this]
  rfl

end Kame

namespace Kame

theorem delALoop_spec {b : Buffer} (hwf : wf b) {k : Nat}
    (hcp : headCp b.after_insertion_point = some k) :
    ∀ (n j : Nat) (res : List Nat), j + 1 + n = k →
      ∃ r, Buffer.delALoop (4 - j) b (b.iptr + b.gap_len) j res =
        some (some r, { b with gap_len := b.gap_len + k }) := by
  have hk := headCp_pos_le hcp
  have hane : b.after_insertion_point ≠ [] := by
    intro hcon
    rw [hcon] at hcp
    simp [headCp] at hcp
  obtain ⟨v, t, ha⟩ : ∃ v t, b.after_insertion_point = v :: t := by
    cases hx : b.after_insertion_point with
    | nil => exact absurd hx hane
    | cons v t => exact ⟨v, t, rfl⟩
  have hget := getB_after ha
  have hgap : b.gap_len + k ≤ b.bytes.length := by
    have h1 := hwf.1
    have h2 := hk.2.2
    have : b.after_insertion_point.length = b.bytes.length - (b.iptr + b.gap_len) := by
      simp [Buffer.after_insertion_point]
    omega
  have hstep : ∀ (f j : Nat) (res : List Nat), j + 1 ≤ k →
      Buffer.delALoop (f + 1) b (b.iptr + b.gap_len) j res =
        if utf8Valid (b.after_insertion_point.take (j + 1)) = true then
          some (some (res ++ [v]),
            { iptr := b.iptr, gap_len := min (b.gap_len + j + 1) b.bytes.length,
              bytes := b.bytes })
        else Buffer.delALoop f b (b.iptr + b.gap_len) (j + 1) (res ++ [v]) := by
    intro f j res hjk
    have hslice := sliceB_after hwf.1 (m := j + 1) (by omega) (by omega)
    have harr : b.iptr + b.gap_len + (j + 1) = b.iptr + b.gap_len + j + 1 := by omega
    rw [harr] at hslice
    conv_lhs => rw [Buffer.delALoop]
    rw [hget, hslice]
    rfl
  intro n
  induction n with
  | zero =>
    intro j res hj
    have hfuel : 4 - j = (3 - j) + 1 := by omega
    rw [hfuel, hstep (3 - j) j res (by omega)]
    rw [show utf8Valid (b.after_insertion_point.take (j + 1)) = true from by
      rw [show j + 1 = k from by omega]
      exact valid_take_k hcp]
    simp only [if_true]
    refine ⟨res ++ [v], ?_⟩
    rw [show b.gap_len + j + 1 = b.gap_len + k from by omega, Nat.min_eq_left hgap]
  | succ n ih =>
    intro j res hj
    have hfuel : 4 - j = (3 - j) + 1 := by omega
    rw [hfuel, hstep (3 - j) j res (by omega)]
    rw [show utf8Valid (b.after_insertion_point.take (j + 1)) = false from
      valid_take_lt hcp (by omega) (by omega)]
    simp only [Bool.false_eq_true, if_false]
    have := ih (j + 1) (res ++ [v]) (by omega)
    rw [show 4 - (j + 1) = 3 - j from by omega] at this
    exact this

end Kame

namespace Kame

theorem after_len {b : Buffer} :
    b.after_insertion_point.length = b.bytes.length - (b.iptr + b.gap_len) := by
  simp [Buffer.after_insertion_point]

theorem before_len {b : Buffer} (h : b.iptr ≤ b.bytes.length) :
    b.before_insertion_point.length = b.iptr := by
  simp [Buffer.before_insertion_point]
  omega

theorem delete_after_ptr_spec {b : Buffer} (hwf : wf b)
    (ha : b.after_insertion_point ≠ []) :
    ∃ r, b.delete_after_ptr = some (some r,
      { b with gap_len := b.gap_len + cpLen b.after_insertion_point }) := by
  obtain ⟨k, hcp, hrest⟩ := valid_decomp hwf.2.2 ha
  have hk := headCp_pos_le hcp
  have hkc : cpLen b.after_insertion_point = k := headCp_cpLen hcp
  have hne : ¬ (b.iptr + b.gap_len = b.bytes.length) := by
    intro hcon
    apply ha
    have h2 := after_len (b := b)
    rw [hcon, Nat.sub_self] at h2
    exact List.length_eq_zero.mp h2
  unfold Buffer.delete_after_ptr
  rw [if_neg hne, hkc]
  exact delALoop_spec hwf hcp (k - 1) 0 [] (by omega)

theorem dropCp_after {b : Buffer} (hwf : wf b) :
    ({ b with gap_len := b.gap_len + cpLen b.after_insertion_point } :
        Buffer).after_insertion_point = dropCp b.after_insertion_point := by
  show b.bytes.drop (b.iptr + (b.gap_len + cpLen b.after_insertion_point)) = _
  rw [show b.iptr + (b.gap_len + cpLen b.after_insertion_point) =
    b.iptr + b.gap_len + cpLen b.after_insertion_point from by omega]
  rw [← List.drop_drop]
  rfl

theorem wf_after_delete {b : Buffer} (hwf : wf b) (ha : b.after_insertion_point ≠ []) :
    wf ({ b with gap_len := b.gap_len + cpLen b.after_insertion_point } : Buffer) := by
  obtain ⟨k, hcp, hrest⟩ := valid_decomp hwf.2.2 ha
  have hk := headCp_pos_le hcp
  have hkc : cpLen b.after_insertion_point = k := headCp_cpLen hcp
  have hal := after_len (b := b)
  have h1 := hwf.1
  refine ⟨?_, hwf.2.1, ?_⟩
  · show b.iptr + (b.gap_len + cpLen b.after_insertion_point) ≤ b.bytes.length
    omega
  rw [dropCp_after hwf]
  unfold dropCp
  rw [hkc]
  exact hrest

theorem delete_under_cursor_spec {e : Editor} (hwf : wf e.buffer) :
    ∃ e', e.delete_under_cursor = some e' ∧
      e'.buffer.before_insertion_point = e.buffer.before_insertion_point ∧
      e'.buffer.after_insertion_point = dropCp e.buffer.after_insertion_point ∧
      wf e'.buffer := by
  by_cases ha : e.buffer.after_insertion_point = []
  · have hedge : e.buffer.iptr + e.buffer.gap_len = e.buffer.bytes.length := by
      have h1 := hwf.1
      have h2 := after_len (b := e.buffer)
      rw [ha] at h2
      simp at h2
      omega
    have hd : e.buffer.delete_after_ptr = some (none, e.buffer) := by
      unfold Buffer.delete_after_ptr
      rw [if_pos hedge]
    refine ⟨{ e with dirty := true }, ?_, rfl, ?_, hwf⟩
    · simp [Editor.delete_under_cursor, hd]
    · rw [ha]
      rfl
  · obtain ⟨r, hd⟩ := delete_after_ptr_spec hwf ha
    refine
      ⟨{ e with
          dirty := true
          buffer :=
            { e.buffer with
              gap_len := e.buffer.gap_len + cpLen e.buffer.after_insertion_point }
          undo_manager := e.undo_manager.push (.deleteAfter e.buffer.iptr r) },
        ?_, rfl, dropCp_after hwf, wf_after_delete hwf ha⟩
    simp [Editor.delete_under_cursor, hd]

theorem iter_delete_under_spec :
    ∀ (n : Nat) (e : Editor), wf e.buffer →
      ∃ e', Editor.iterE n Editor.delete_under_cursor e = some e' ∧
        e'.buffer.before_insertion_point = e.buffer.before_insertion_point ∧
        e'.buffer.after_insertion_point = dropCps n e.buffer.after_insertion_point ∧
        wf e'.buffer := by
  intro n
  induction n with
  | zero => intro e hwf; exact ⟨e, rfl, rfl, rfl, hwf⟩
  | succ n ih =>
    intro e hwf
    obtain ⟨e1, h1, hb1, ha1, hwf1⟩ := delete_under_cursor_spec hwf
    obtain ⟨e', h', hb', ha', hwf'⟩ := ih e1 hwf1
    refine ⟨e', ?_, hb'.trans hb1, ?_, hwf'⟩
    · simp only [Editor.iterE]
      rw [h1]
      exact h'
    · rw [ha', ha1]
      rfl

end Kame

namespace Kame

theorem sliceB_before {b : Buffer} (hL : b.iptr ≤ b.bytes.length) {i : Nat} (hi : i ≤ b.iptr) :
    sliceB b.bytes i b.iptr = some (b.before_insertion_point.drop i) := by
  unfold sliceB
  rw [if_pos ⟨hi, hL⟩]
  congr 1
  rw [show b.before_insertion_point.drop i = (b.bytes.take b.iptr).drop i from rfl]
  rw [List.drop_take]

theorem getB_lt {b : Buffer} {i : Nat} (hi : i < b.bytes.length) :
    ∃ v, getB b.bytes i = some v := by
  unfold getB
  rw [List.get?_eq_get hi]
  exact ⟨_, rfl⟩

theorem delBLoop_spec {b : Buffer} (hwf : wf b) {q c : List Nat}
    (hdec : b.before_insertion_point = q ++ c) (hq : utf8Valid q = true)
    (hc : headCp c = some c.length) (hcne : c ≠ []) :
    ∀ (n j : Nat) (res : List Nat), j + 1 + n = c.length →
      ∃ r, Buffer.delBLoop (4 - j) b (b.iptr - 1 - j) res =
        some (some r,
          { b with gap_len := b.gap_len + c.length, iptr := b.iptr - c.length }) := by
  have hk := headCp_pos_le hc
  have hL : b.iptr ≤ b.bytes.length := by
    have := hwf.1
    omega
  have hpl : b.before_insertion_point.length = b.iptr := before_len hL
  have hkp : c.length ≤ b.iptr := by
    have := congrArg List.length hdec
    rw [hpl] at this
    simp at this
    omega
  have hvc : utf8Valid c = true := valid_compose hc (by rw [List.drop_length]; rfl)
  have hsuffix : ∀ j : Nat, j + 1 ≤ c.length →
      b.before_insertion_point.drop (b.iptr - 1 - j) = c.drop (c.length - (j + 1)) := by
    intro j hj
    rw [hdec]
    have hql : q.length = b.iptr - c.length := by
      have := congrArg List.length hdec
      rw [hpl] at this
      simp at this
      omega
    rw [show b.iptr - 1 - j = q.length + (c.length - (j + 1)) from by omega]
    exact List.drop_append _
  have hstep : ∀ (f j : Nat) (res : List Nat), j + 1 ≤ c.length →
      ∃ v, Buffer.delBLoop (f + 1) b (b.iptr - 1 - j) res =
        if utf8Valid (c.drop (c.length - (j + 1))) = true then
          some (some (res ++ [v]),
            { iptr := b.iptr - 1 - j,
              gap_len := b.gap_len + (b.iptr - (b.iptr - 1 - j)), bytes := b.bytes })
        else Buffer.delBLoop f b (b.iptr - 1 - j - 1) (res ++ [v]) := by
    intro f j res hj
    obtain ⟨v, hget⟩ := getB_lt (b := b) (i := b.iptr - 1 - j) (by omega)
    have hslice := sliceB_before hL (i := b.iptr - 1 - j) (by omega)
    rw [hsuffix j hj] at hslice
    refine ⟨v, ?_⟩
    conv_lhs => rw [Buffer.delBLoop]
    rw [hget, hslice]
    rfl
  intro n
  induction n with
  | zero =>
    intro j res hj
    have hfuel : 4 - j = (3 - j) + 1 := by omega
    obtain ⟨v, hs⟩ := hstep (3 - j) j res (by omega)
    rw [hfuel, hs]
    rw [show c.length - (j + 1) = 0 from by omega]
    rw [show (c.drop 0) = c from rfl, hvc]
    simp only [if_true]
    refine ⟨res ++ [v], ?_⟩
    rw [show b.iptr - (b.iptr - 1 - j) = c.length from by omega,
      show b.iptr - 1 - j = b.iptr - c.length from by omega]
  | succ n ih =>
    intro j res hj
    have hfuel : 4 - j = (3 - j) + 1 := by omega
    obtain ⟨v, hs⟩ := hstep (3 - j) j res (by omega)
    rw [hfuel, hs]
    rw [show utf8Valid (c.drop (c.length - (j + 1))) = false from
      cp_suffix_invalid hc (by omega) (by omega)]
    simp only [Bool.false_eq_true, if_false]
    have := ih (j + 1) (res ++ [v]) (by omega)
    rw [show 4 - (j + 1) = 3 - j from by omega,
      show b.iptr - 1 - (j + 1) = b.iptr - 1 - j - 1 from by omega] at this
    exact this

end Kame

namespace Kame

theorem delete_before_ptr_spec {b : Buffer} (hwf : wf b)
    (hp : b.before_insertion_point ≠ []) :
    ∃ r, b.delete_before_ptr = some (some r,
      { b with gap_len := b.gap_len + lastCpLen b.before_insertion_point,
               iptr := b.iptr - lastCpLen b.before_insertion_point }) := by
  obtain ⟨q, c, hdec, hq, hc, hcne⟩ := valid_last_decomp hwf.2.1 hp
  have hk := headCp_pos_le hc
  have hip : b.iptr ≠ 0 := by
    intro hcon
    apply hp
    unfold Buffer.before_insertion_point
    rw [hcon]
    rfl
  have hlast : lastCpLen b.before_insertion_point = c.length := by
    rw [hdec]
    exact lastCpLen_eq hc
  unfold Buffer.delete_before_ptr
  rw [if_neg hip, hlast]
  have := delBLoop_spec hwf hdec hq hc hcne (c.length - 1) 0 [] (by omega)
  rw [show b.iptr - 1 - 0 = b.iptr - 1 from by omega] at this
  exact this

theorem before_after_delete_before {b : Buffer} (hwf : wf b) {q c : List Nat}
    (hdec : b.before_insertion_point = q ++ c) (hc : headCp c = some c.length)
    (hcne : c ≠ []) :
    ({ b with gap_len := b.gap_len + c.length, iptr := b.iptr - c.length } :
        Buffer).before_insertion_point = q ∧
    ({ b with gap_len := b.gap_len + c.length, iptr := b.iptr - c.length } :
        Buffer).after_insertion_point = b.after_insertion_point := by
  have hL : b.iptr ≤ b.bytes.length := by
    have := hwf.1
    omega
  have hpl : b.before_insertion_point.length = b.iptr := before_len hL
  have hkp : c.length ≤ b.iptr := by
    have := congrArg List.length hdec
    rw [hpl] at this
    simp at this
    omega
  have hql : q.length = b.iptr - c.length := by
    have := congrArg List.length hdec
    rw [hpl] at this
    simp at this
    omega
  constructor
  · show b.bytes.take (b.iptr - c.length) = q
    have h1 : b.bytes.take (b.iptr - c.length) = b.before_insertion_point.take (b.iptr - c.length) := by
      show _ = (b.bytes.take b.iptr).take (b.iptr - c.length)
      rw [List.take_take, Nat.min_eq_left (by omega)]
    rw [h1, hdec, ← hql, List.take_left]
  · show b.bytes.drop (b.iptr - c.length + (b.gap_len + c.length)) = _
    rw [show b.iptr - c.length + (b.gap_len + c.length) = b.iptr + b.gap_len from by omega]
    rfl

theorem delete_before_cursor_spec {e : Editor} (hwf : wf e.buffer) :
    ∃ e', e.delete_before_cursor = some e' ∧
      e'.buffer.before_insertion_point = dropLastCp e.buffer.before_insertion_point ∧
      e'.buffer.after_insertion_point = e.buffer.after_insertion_point ∧
      wf e'.buffer := by
  by_cases hp : e.buffer.before_insertion_point = []
  · have hip : e.buffer.iptr = 0 := by
      have hL : e.buffer.iptr ≤ e.buffer.bytes.length := by
        have := hwf.1
        omega
      have := before_len (b := e.buffer) hL
      rw [hp] at this
      simp at this
      omega
    have hd : e.buffer.delete_before_ptr = some (none, e.buffer) := by
      unfold Buffer.delete_before_ptr
      rw [if_pos hip]
    refine ⟨{ e with dirty := true }, ?_, ?_, rfl, hwf⟩
    · simp [Editor.delete_before_cursor, hd]
    · rw [hp]
      rfl
  · obtain ⟨q, c, hdec, hq, hc, hcne⟩ := valid_last_decomp hwf.2.1 hp
    have hL : e.buffer.iptr ≤ e.buffer.bytes.length := by
      have := hwf.1
      omega
    have hkp : c.length ≤ e.buffer.iptr := by
      have := congrArg List.length hdec
      rw [before_len hL] at this
      simp at this
      omega
    have hlast : lastCpLen e.buffer.before_insertion_point = c.length := by
      rw [hdec]
      exact lastCpLen_eq hc
    obtain ⟨r, hd⟩ := delete_before_ptr_spec hwf hp
    rw [hlast] at hd
    obtain ⟨hbef, haft⟩ := before_after_delete_before hwf hdec hc hcne
    have hwfX : wf ({ e.buffer with
        gap_len := e.buffer.gap_len + c.length
        iptr := e.buffer.iptr - c.length } : Buffer) := by
      refine ⟨?_, ?_, ?_⟩
      · show e.buffer.iptr - c.length + (e.buffer.gap_len + c.length) ≤
          e.buffer.bytes.length
        have h1 := hwf.1
        omega
      · rw [hbef]
        exact hq
      · rw [haft]
        exact hwf.2.2
    refine
      ⟨{ e with
          dirty := true
          buffer :=
            { e.buffer with
              gap_len := e.buffer.gap_len + c.length, iptr := e.buffer.iptr - c.length }
          undo_manager := e.undo_manager.push
            (.deleteBefore (e.buffer.iptr - c.length) r) },
        ?_, ?_, haft, hwfX⟩
    · simp [Editor.delete_before_cursor, hd]
    · rw [hbef, hdec, dropLastCp_eq hc]

end Kame

namespace Kame

/-- C7 counterexample: in `"a\nb"` with the cursor at offset 1 (end of the
first line, column 1), cut-to-end-of-line removes the line break, leaving
`"ab"` — though the claim says nothing is deleted forward before the line
break is reached and no backward deletion happens away from column 0. -/
theorem c7_counterexample :
    (do
      let e := Editor.new [97, 10, 98]
      let e ← e.update .forwardOneChar
      let e ← e.update .cutToEndOfLine
      pure e.buffer.contents : Option (List Nat)) = some [97, 98] ∧
    ([97, 98] : List Nat) ≠ [97, 10, 98] := by
  exact ⟨by decide, by decide⟩

/-- C7 (amended): on a well-formed buffer, cut-to-end-of-line counts the
bytes of the after-gap content before the next line break and deletes that
many codepoints forward but at least one (each deletion a silent no-op at
buffer end) — so at the end of a line it deletes the line break itself, and
a multibyte remainder makes it delete past the line break — and afterwards
deletes one more codepoint backward exactly when the cursor's column is 0;
formally, its effect on the (before-gap, after-gap) contents is `cutSpec`. -/
theorem c7_cut_characterization (e : Editor) (hwf : wf e.buffer) :
    ∃ e', e.cut_to_eol = some e' ∧
      e'.buffer.before_insertion_point =
        (cutSpec e.buffer.before_insertion_point e.buffer.after_insertion_point).1 ∧
      e'.buffer.after_insertion_point =
        (cutSpec e.buffer.before_insertion_point e.buffer.after_insertion_point).2 := by
  have hmax : Editor.colsUntilNewline e.buffer.after_insertion_point - 1 + 1 =
      max (Editor.colsUntilNewline e.buffer.after_insertion_point) 1 := by omega
  obtain ⟨e1, h1, hb1, ha1, hwf1⟩ :=
    iter_delete_under_spec (max (Editor.colsUntilNewline e.buffer.after_insertion_point) 1) e hwf
  by_cases hcol : Editor.colsUntilNewline e.buffer.before_insertion_point.reverse = 0
  · obtain ⟨e2, h2, hb2, ha2, hwf2⟩ := delete_before_cursor_spec hwf1
    refine ⟨e2, ?_, ?_, ?_⟩
    · simp only [Editor.cut_to_eol, hmax]
      rw [h1]
      show (if Editor.colsUntilNewline e1.buffer.before_insertion_point.reverse = 0
        then e1.delete_before_cursor else some e1) = some e2
      rw [hb1, if_pos hcol]
      exact h2
    · rw [hb2, hb1]
      unfold cutSpec
      rw [if_pos hcol]
    · rw [ha2, ha1]
      unfold cutSpec
      rw [if_pos hcol]
  · refine ⟨e1, ?_, ?_, ?_⟩
    · simp only [Editor.cut_to_eol, hmax]
      rw [h1]
      show (if Editor.colsUntilNewline e1.buffer.before_insertion_point.reverse = 0
        then e1.delete_before_cursor else some e1) = some e1
      rw [hb1, if_neg hcol]
    · rw [hb1]
      unfold cutSpec
      rw [if_neg hcol]
    · rw [ha1]
      unfold cutSpec
      rw [if_neg hcol]

end Kame


namespace Kame

/-- C7 witness: the characterisation applied to the buffer `"a\nb"` with the
cursor at offset 0. -/
theorem c7_witness :
    ∃ e', (Editor.new [97, 10, 98]).cut_to_eol = some e' ∧
      e'.buffer.before_insertion_point =
        (cutSpec (Editor.new [97, 10, 98]).buffer.before_insertion_point
          (Editor.new [97, 10, 98]).buffer.after_insertion_point).1 ∧
      e'.buffer.after_insertion_point =
        (cutSpec (Editor.new [97, 10, 98]).buffer.before_insertion_point
          (Editor.new [97, 10, 98]).buffer.after_insertion_point).2 :=
  c7_cut_characterization (Editor.new [97, 10, 98]) (by decide)

end Kame
